import Mathlib

/-!
# Verification of the gh-space-shooter simulation and encoder

Shallow embedding of the gh-space-shooter sources (simulation engine,
entity model, action policies, timeline track compressors, slot
multiplexer and the XML entity minifier) together with proofs settling
the specification claims.  Python floats are modelled as exact
rationals, Python lists as Lean lists, and Python object identity as a
synthetic `id` field threaded through allocation.  The `random.Random`
streams are modelled as explicit functions `ℕ → ℚ` (each value standing
for one uniform draw in `[0,1)`) together with a consumption index.
-/

namespace GhSpaceShooter

/-! ## Constants (`constants.py`) -/

def NUM_WEEKS : ℤ := 52
def NUM_DAYS : ℤ := 7
def GAME_GRID_WIDTH : ℤ := NUM_WEEKS
def SHIP_POSITION_Y : ℤ := NUM_DAYS + 3
def SHIP_SPEED : ℚ := 125 / 10
def BULLET_SPEED : ℚ := 75 / 10
def BOSS_MOVE_SPEED : ℚ := 5 / 10
def POWER_UP_SPEED : ℚ := 1
def SHIP_SHOOT_COOLDOWN : ℚ := 2 / 10
def BOSS_SHOOT_INTERVAL : ℚ := 15 / 10
def SHIP_MAX_HEALTH : ℤ := 3
def RAPID_FIRE_DURATION : ℚ := 5
def EXPLOSION_DURATION_LARGE : ℚ := 4 / 10
def EXPLOSION_DURATION_SMALL : ℚ := 12 / 100
def STAR_SPEED_MIN : ℚ := 1
def STAR_SPEED_MAX : ℚ := 25 / 10

/-- Python `int(q)` truncation toward zero, used by `int(self.x)` casts. -/
def pyTrunc (q : ℚ) : ℤ := if 0 ≤ q then ⌊q⌋ else -⌊-q⌋

/-- Python `abs` on a rational, as an executable definition. -/
def pyAbs (q : ℚ) : ℚ := if q < 0 then -q else q

/-! ## Contribution data (`github_client.ContributionData` shape) -/

structure Day where
  level : ℤ
  deriving Repr, DecidableEq

structure Week where
  days : List Day
  deriving Repr, DecidableEq

structure ContributionData where
  weeks : List Week
  deriving Repr, DecidableEq

/-! ## Entity model (`game/drawables/*.py`)

Each entity carries a synthetic `id` modelling Python object identity:
`list.remove(obj)` removes the first list element that *is* `obj`. -/

structure Star where
  star_id : ℕ
  x : ℚ
  y : ℚ
  brightness : ℚ
  size : ℕ
  speed : ℚ
  deriving Repr, DecidableEq

structure Ship where
  x : ℚ
  target_x : ℚ
  shoot_cooldown : ℚ
  health : ℤ
  is_destroyed : Bool
  is_rapid_fire_active : Bool
  rapid_fire_duration_remaining : ℚ
  deriving Repr, DecidableEq

/-- `Ship.__init__`: starts at the middle of the screen. -/
def Ship.init : Ship :=
  { x := 25, target_x := 25, shoot_cooldown := 0, health := SHIP_MAX_HEALTH,
    is_destroyed := false, is_rapid_fire_active := false,
    rapid_fire_duration_remaining := 0 }

/-- `Ship.move_to`; annotated `int` in the source but receives whatever
the policy's `Action.x` holds, hence `ℚ`. -/
def Ship.move_to (s : Ship) (x : ℚ) : Ship := { s with target_x := x }

/-- `Ship.is_moving`. -/
def Ship.is_moving (s : Ship) : Bool := s.x ≠ s.target_x

/-- `Ship.can_shoot`. -/
def Ship.can_shoot (s : Ship) : Bool :=
  if s.is_rapid_fire_active then true else s.shoot_cooldown ≤ 0

/-- Regular enemies and the boss (`enemy.py` is absent from the sources;
its fields are reconstructed from its callers, and `Boss.__init__` from
`boss.py`).  `isBoss` distinguishes the `Boss` subclass. -/
structure Enemy where
  eid : ℕ
  x : ℚ
  y : ℚ
  health : ℤ
  isBoss : Bool
  direction : ℤ
  shoot_cooldown : ℚ
  shoot_interval : ℚ
  width_cells : ℤ
  height_cells : ℤ
  deriving Repr, DecidableEq

def Enemy.mkRegular (eid : ℕ) (x y : ℤ) (health : ℤ) : Enemy :=
  { eid := eid, x := (x : ℚ), y := (y : ℚ), health := health, isBoss := false,
    direction := 1, shoot_cooldown := 0, shoot_interval := 0,
    width_cells := 1, height_cells := 1 }

/-- `Boss.__init__` (`boss.py`). -/
def Enemy.mkBoss (eid : ℕ) (x y : ℤ) (health : ℤ) : Enemy :=
  { eid := eid, x := (x : ℚ), y := (y : ℚ), health := health, isBoss := true,
    direction := 1, shoot_cooldown := BOSS_SHOOT_INTERVAL,
    shoot_interval := BOSS_SHOOT_INTERVAL, width_cells := 3, height_cells := 2 }

inductive BulletKind where
  | ship
  | boss
  deriving Repr, DecidableEq

structure Bullet where
  bid : ℕ
  x : ℚ
  y : ℚ
  kind : BulletKind
  speed : ℚ
  deriving Repr, DecidableEq

/-- `Bullet.__init__`: spawned one cell above the ship row. -/
def Bullet.mkShip (bid : ℕ) (x : ℤ) : Bullet :=
  { bid := bid, x := (x : ℚ), y := (SHIP_POSITION_Y : ℚ) - 1, kind := .ship,
    speed := 0 }

/-- `BossBullet.__init__`: starts at the given position, moves down. -/
def Bullet.mkBoss (bid : ℕ) (x y : ℚ) : Bullet :=
  { bid := bid, x := x, y := y, kind := .boss, speed := BULLET_SPEED }

inductive ExplosionSize where
  | small
  | large
  deriving Repr, DecidableEq

/-- Modelled from the spec: `explosion.py` is absent from the sources.
Explosions carry position, size, elapsed age and particle angles drawn
from the world randomness; per §4.1 they age out after their duration. -/
structure Explosion where
  xid : ℕ
  x : ℚ
  y : ℚ
  size : ExplosionSize
  elapsed : ℚ
  angles : List ℚ
  deriving Repr, DecidableEq

def Explosion.duration (e : Explosion) : ℚ :=
  match e.size with
  | .small => EXPLOSION_DURATION_SMALL
  | .large => EXPLOSION_DURATION_LARGE

structure PowerUp where
  pid : ℕ
  x : ℚ
  y : ℚ
  power_up_type : String
  speed : ℚ
  deriving Repr, DecidableEq

/-- `RapidFirePowerUp.__init__` (`power_up.py`). -/
def PowerUp.mkRapidFire (pid : ℕ) (x y : ℚ) : PowerUp :=
  { pid := pid, x := x, y := y, power_up_type := "rapid_fire",
    speed := POWER_UP_SPEED }

/-! ## Game state (`game/game_state.py`) -/

structure GameState where
  stars : List Star
  /-- World RNG (`random.Random`) as a stream of uniform draws in `[0,1)`. -/
  rng : ℕ → ℚ
  rngIdx : ℕ
  ship : Ship
  enemies : List Enemy
  bullets : List Bullet
  explosions : List Explosion
  power_ups : List PowerUp
  score : ℤ
  /-- Allocation counter modelling Python object identity. -/
  nextId : ℕ

/-- One uniform draw `rng.uniform(a, b)` from the world stream. -/
def GameState.draw1 (gs : GameState) (a b : ℚ) : ℚ × GameState :=
  (a + (b - a) * gs.rng gs.rngIdx, { gs with rngIdx := gs.rngIdx + 1 })

/-- Remove the first bullet that is this object (`list.remove`).  The
`BossBullet.animate` double-removal path would raise `ValueError` in
Python when the element is already absent; that path is not reachable in
any theorem below and is modelled as a no-op. -/
def removeBulletById (l : List Bullet) (bid : ℕ) : List Bullet :=
  match l with
  | [] => []
  | b :: rest => if b.bid = bid then rest else b :: removeBulletById rest bid

def removeEnemyById (l : List Enemy) (eid : ℕ) : List Enemy :=
  match l with
  | [] => []
  | e :: rest => if e.eid = eid then rest else e :: removeEnemyById rest eid

def removeExplosionById (l : List Explosion) (xid : ℕ) : List Explosion :=
  match l with
  | [] => []
  | e :: rest => if e.xid = xid then rest else e :: removeExplosionById rest xid

def removePowerUpById (l : List PowerUp) (pid : ℕ) : List PowerUp :=
  match l with
  | [] => []
  | p :: rest => if p.pid = pid then rest else p :: removePowerUpById rest pid

/-- In-place field update of a list entry, modelling mutation of an
aliased Python object that sits in an engine collection. -/
def updateEnemyById (l : List Enemy) (eid : ℕ) (f : Enemy → Enemy) : List Enemy :=
  match l with
  | [] => []
  | e :: rest => if e.eid = eid then f e :: rest else e :: updateEnemyById rest eid f

def updateBulletById (l : List Bullet) (bid : ℕ) (f : Bullet → Bullet) : List Bullet :=
  match l with
  | [] => []
  | b :: rest => if b.bid = bid then f b :: rest else b :: updateBulletById rest bid f

def updateExplosionById (l : List Explosion) (xid : ℕ) (f : Explosion → Explosion) :
    List Explosion :=
  match l with
  | [] => []
  | e :: rest => if e.xid = xid then f e :: rest else e :: updateExplosionById rest xid f

def updatePowerUpById (l : List PowerUp) (pid : ℕ) (f : PowerUp → PowerUp) :
    List PowerUp :=
  match l with
  | [] => []
  | p :: rest => if p.pid = pid then f p :: rest else p :: updatePowerUpById rest pid f

/-- Modelled from the spec: `GameState.create_explosion` is called by
`bullet.py` but absent from `game_state.py` in the sources.  Per §4.1/§3
it appends a new explosion whose particle angles come from the world
randomness (one draw per particle, 4 for small, 8 for large). -/
def GameState.create_explosion (gs : GameState) (x y : ℚ) (size : ExplosionSize) :
    GameState :=
  let count : ℕ := match size with | .small => 4 | .large => 8
  let angles := (List.range count).map (fun i => gs.rng (gs.rngIdx + i) * 360)
  { gs with
    explosions := gs.explosions ++
      [{ xid := gs.nextId, x := x, y := y, size := size, elapsed := 0,
         angles := angles }],
    rngIdx := gs.rngIdx + count,
    nextId := gs.nextId + 1 }

/-- Modelled from the spec: `GameState.remove_bullet` is called by
`bullet.py` but absent from `game_state.py` in the sources.  Per §3
destroyed bullets are removed from the engine's collection. -/
def GameState.remove_bullet (gs : GameState) (bid : ℕ) : GameState :=
  { gs with bullets := removeBulletById gs.bullets bid }

/-- Modelled from the spec: `Enemy.take_damage` (`enemy.py` is absent
from the sources; behaviour per §4.1 and `Boss.take_damage`): health is
decremented, at zero health the enemy is removed and the score increases
by 100 for a regular enemy.  The boss bonus lives in `Boss.take_damage`
below. -/
def GameState.enemyBaseTakeDamage (gs : GameState) (e : Enemy) : GameState × Enemy :=
  let e' := { e with health := e.health - 1 }
  let gs := { gs with enemies := updateEnemyById gs.enemies e.eid (fun _ => e') }
  if e'.health ≤ 0 then
    let gs := { gs with enemies := removeEnemyById gs.enemies e.eid }
    if e'.isBoss then (gs, e')
    else ({ gs with score := gs.score + 100 }, e')
  else (gs, e')

/-- `Enemy.take_damage` dispatched through `Boss.take_damage`
(`boss.py`): the boss path calls the base logic, then at zero health
adds 1000 to the score and drops exactly one power-up. -/
def GameState.takeDamage (gs : GameState) (e : Enemy) : GameState :=
  let (gs, e') := gs.enemyBaseTakeDamage e
  if e'.isBoss then
    if e'.health ≤ 0 then
      { gs with
        score := gs.score + 1000,
        power_ups := gs.power_ups ++ [PowerUp.mkRapidFire gs.nextId e'.x e'.y],
        nextId := gs.nextId + 1 }
    else gs
  else gs

/-- `GameState.shoot`. -/
def GameState.shoot (gs : GameState) : GameState :=
  { gs with
    bullets := gs.bullets ++ [Bullet.mkShip gs.nextId (pyTrunc gs.ship.x)],
    nextId := gs.nextId + 1,
    ship := { gs.ship with shoot_cooldown := SHIP_SHOOT_COOLDOWN } }

/-- `GameState.is_complete`. -/
def GameState.is_complete (gs : GameState) : Bool := gs.enemies.length = 0

/-- `GameState.can_take_action`. -/
def GameState.can_take_action (gs : GameState) : Bool :=
  !gs.ship.is_moving && gs.ship.can_shoot

/-! ## Per-tick updates

Python's `for x in lst:` over a live, mutating list is index-based: the
iterator keeps a cursor `i`, stops when `i ≥ len(lst)`, and in-place
removals shift later elements down.  `pyIterLoop` reproduces exactly
that; the fuel argument (initial length) is an upper bound on the
number of iterations because no update loop grows its own collection. -/

def pyIterLoop (get : GameState → List α) (body : GameState → α → GameState) :
    ℕ → ℕ → GameState → GameState
  | 0, _, gs => gs
  | fuel + 1, i, gs =>
      match (get gs)[i]? with
      | none => gs
      | some a => pyIterLoop get body fuel (i + 1) (body gs a)

def pyFor (get : GameState → List α) (body : GameState → α → GameState)
    (gs : GameState) : GameState :=
  pyIterLoop get body (get gs).length 0 gs

/-- One star update from `Starfield.animate`: fall, and wrap back to the
top with a fresh random x when leaving the viewport. -/
def starStep (delta : ℚ) (acc : List Star × ((ℕ → ℚ) × ℕ)) (s : Star) :
    List Star × ((ℕ → ℚ) × ℕ) :=
  let (done, (rng, idx)) := acc
  let s := { s with y := s.y + s.speed * delta }
  if (SHIP_POSITION_Y : ℚ) + 4 < s.y then
    let x := -2 + ((NUM_WEEKS : ℚ) + 2 - (-2)) * rng idx
    (done ++ [{ s with y := -3, x := x }], (rng, idx + 1))
  else
    (done ++ [s], (rng, idx))

/-- `Starfield.animate` over the whole star list. -/
def GameState.starfieldAnimate (gs : GameState) (delta : ℚ) : GameState :=
  let (stars, (_, idx)) := gs.stars.foldl (starStep delta) ([], (gs.rng, gs.rngIdx))
  { gs with stars := stars, rngIdx := idx }

/-- `Ship._check_power_up_collision`: first power-up sharing the ship's
integer cell at or below the ship row. -/
def shipPowerUpHit (gs : GameState) : Option PowerUp :=
  gs.power_ups.find? fun pu =>
    pyTrunc gs.ship.x = pyTrunc pu.x && (SHIP_POSITION_Y : ℚ) ≤ pu.y

/-- The movement part of `Ship.animate`: approach `target_x` at
`SHIP_SPEED`, clamped so the target is never overshot. -/
def shipMove (s : Ship) (delta : ℚ) : Ship :=
  let delta_x := SHIP_SPEED * delta
  if s.x < s.target_x then { s with x := min (s.x + delta_x) s.target_x }
  else if s.target_x < s.x then { s with x := max (s.x - delta_x) s.target_x }
  else s

/-- `Ship.animate` (`ship.py`): ease toward the target column, decrement
the shoot cooldown and the rapid-fire timer, then collect power-ups. -/
def shipCooldownStep (s : Ship) (delta : ℚ) : Ship :=
  if 0 < s.shoot_cooldown then { s with shoot_cooldown := s.shoot_cooldown - delta }
  else s

def shipRapidStep (s : Ship) (delta : ℚ) : Ship :=
  if s.is_rapid_fire_active then
    let s := { s with rapid_fire_duration_remaining := s.rapid_fire_duration_remaining - delta }
    if s.rapid_fire_duration_remaining ≤ 0 then { s with is_rapid_fire_active := false }
    else s
  else s

/-- Power-up pickup at the end of `Ship.animate`. -/
def GameState.collectPowerUp (gs : GameState) : GameState :=
  match shipPowerUpHit gs with
  | none => gs
  | some pu =>
      let s := { gs.ship with
                 is_rapid_fire_active := true
                 rapid_fire_duration_remaining := RAPID_FIRE_DURATION }
      { gs with power_ups := removePowerUpById gs.power_ups pu.pid, ship := s }

def GameState.shipAnimate (gs : GameState) (delta : ℚ) : GameState :=
  let s := shipRapidStep (shipCooldownStep (shipMove gs.ship delta) delta) delta
  GameState.collectPowerUp { gs with ship := s }

/-- `Boss._shoot`: spread of three downward bullets appended to the
engine's bullet list. -/
def GameState.bossShoot (gs : GameState) (e : Enemy) : GameState :=
  { gs with
    bullets := gs.bullets ++
      [Bullet.mkBoss gs.nextId (e.x + 1/2) (e.y + (e.height_cells : ℚ) - 1),
       Bullet.mkBoss (gs.nextId + 1) (e.x + 1) (e.y + (e.height_cells : ℚ) - 1),
       Bullet.mkBoss (gs.nextId + 2) (e.x + 3/2) (e.y + (e.height_cells : ℚ) - 1)],
    nextId := gs.nextId + 3 }

/-- The movement/boundary part of `Boss.animate`: advance by
`move_speed * direction * delta`, clamp to `[0, GAME_GRID_WIDTH -
width_cells]` and re-aim at the walls. -/
def bossMove (e : Enemy) (delta : ℚ) : Enemy :=
  let e := { e with x := e.x + BOSS_MOVE_SPEED * (e.direction : ℚ) * delta }
  if e.x ≤ 0 then { e with x := 0, direction := 1 }
  else if (GAME_GRID_WIDTH : ℚ) - (e.width_cells : ℚ) ≤ e.x then
    { e with x := (GAME_GRID_WIDTH : ℚ) - (e.width_cells : ℚ), direction := -1 }
  else e

/-- `Boss.animate` acting on one enemy entry: horizontal bounce between
`0` and `GAME_GRID_WIDTH - width_cells`, then the shooting timer. -/
def GameState.bossAnimate (gs : GameState) (e : Enemy) (delta : ℚ) : GameState :=
  let e := bossMove e delta
  let e := { e with shoot_cooldown := e.shoot_cooldown - delta }
  if e.shoot_cooldown ≤ 0 then
    let gs := gs.bossShoot e
    let e := { e with shoot_cooldown := e.shoot_interval }
    { gs with enemies := updateEnemyById gs.enemies e.eid (fun _ => e) }
  else
    { gs with enemies := updateEnemyById gs.enemies e.eid (fun _ => e) }

/-- Per-enemy update: the boss moves and fires; `enemy.py` is absent
from the sources and nothing in the spec moves a regular enemy, so a
regular enemy's update is the identity (modelled from the spec). -/
def GameState.enemyAnimate (gs : GameState) (e : Enemy) (delta : ℚ) : GameState :=
  if e.isBoss then gs.bossAnimate e delta else gs

def OFFSCREEN_REMOVE_Y : ℚ := -10

/-- `Bullet._check_collision`: first enemy in the bullet's column at or
below the bullet. -/
def bulletHit (enemies : List Enemy) (b : Bullet) : Option Enemy :=
  enemies.find? fun e => e.x = b.x && b.y ≤ e.y

/-- `Ship.take_damage`. -/
def GameState.shipTakeDamage (gs : GameState) : GameState :=
  if gs.ship.is_destroyed then gs
  else
    let s := { gs.ship with health := gs.ship.health - 1 }
    let gs := { gs with ship := s }
    if s.health ≤ 0 then
      let gs := { gs with ship := { s with is_destroyed := true } }
      gs.create_explosion gs.ship.x (SHIP_POSITION_Y : ℚ) .large
    else gs

/-- `Bullet.animate` for a ship bullet: fly up, resolve a hit
(explosion, damage, self-removal), or despawn off screen. -/
def GameState.shipBulletAnimate (gs : GameState) (b : Bullet) (delta : ℚ) : GameState :=
  let b := { b with y := b.y - BULLET_SPEED * delta }
  let gs := { gs with bullets := updateBulletById gs.bullets b.bid (fun _ => b) }
  match bulletHit gs.enemies b with
  | some e =>
      let gs := gs.create_explosion b.x b.y .small
      let gs := gs.takeDamage e
      gs.remove_bullet b.bid
  | none =>
      if b.y < OFFSCREEN_REMOVE_Y then gs.remove_bullet b.bid else gs

/-- `BossBullet.animate`: fly down, damage the ship on contact, despawn
below the ship.  Note the source has no early return after a hit, so the
off-screen check still runs. -/
def GameState.bossBulletAnimate (gs : GameState) (b : Bullet) (delta : ℚ) : GameState :=
  let b := { b with y := b.y + b.speed * delta }
  let gs := { gs with bullets := updateBulletById gs.bullets b.bid (fun _ => b) }
  let gs :=
    if pyTrunc b.x = pyTrunc gs.ship.x ∧ (SHIP_POSITION_Y : ℚ) ≤ b.y then
      let gs := gs.create_explosion b.x b.y .small
      let gs := gs.shipTakeDamage
      { gs with bullets := removeBulletById gs.bullets b.bid }
    else gs
  if (SHIP_POSITION_Y : ℚ) + 5 < b.y then
    { gs with bullets := removeBulletById gs.bullets b.bid }
  else gs

def GameState.bulletAnimate (gs : GameState) (b : Bullet) (delta : ℚ) : GameState :=
  match b.kind with
  | .ship => gs.shipBulletAnimate b delta
  | .boss => gs.bossBulletAnimate b delta

/-- Modelled from the spec: `explosion.py` is absent from the sources;
per §4.1 explosions age by `delta` and are removed once their duration
has elapsed. -/
def GameState.explosionAnimate (gs : GameState) (e : Explosion) (delta : ℚ) : GameState :=
  let e := { e with elapsed := e.elapsed + delta }
  let gs := { gs with explosions := updateExplosionById gs.explosions e.xid (fun _ => e) }
  if e.duration ≤ e.elapsed then
    { gs with explosions := removeExplosionById gs.explosions e.xid }
  else gs

/-- `PowerUp.animate`: drift down and despawn a bit below the ship. -/
def GameState.powerUpAnimate (gs : GameState) (p : PowerUp) (delta : ℚ) : GameState :=
  let p := { p with y := p.y + p.speed * delta }
  let gs := { gs with power_ups := updatePowerUpById gs.power_ups p.pid (fun _ => p) }
  if (SHIP_POSITION_Y : ℚ) + 5 < p.y then
    { gs with power_ups := removePowerUpById gs.power_ups p.pid }
  else gs

/-- The bullet phase of a tick, iterating the live list as Python does. -/
def GameState.bulletsPhase (gs : GameState) (delta : ℚ) : GameState :=
  pyFor (·.bullets) (fun gs b => gs.bulletAnimate b delta) gs

/-- The bullet phase as the spec describes it: iterate a stable snapshot
of the collection taken at tick start (refinement comparison target for
the live-list iteration actually implemented in `game_state.py`). -/
def GameState.bulletsPhaseSpecSnapshot (gs : GameState) (delta : ℚ) : GameState :=
  gs.bullets.foldl (fun gs b => gs.bulletAnimate b delta) gs

/-- `GameState.animate`: fixed in-tick order — background, ship,
enemies, bullets, explosions, power-ups. -/
def GameState.animate (gs : GameState) (delta : ℚ) : GameState :=
  let gs := gs.starfieldAnimate delta
  let gs := gs.shipAnimate delta
  let gs := pyFor (·.enemies) (fun gs e => gs.enemyAnimate e delta) gs
  let gs := gs.bulletsPhase delta
  let gs := pyFor (·.explosions) (fun gs e => gs.explosionAnimate e delta) gs
  pyFor (·.power_ups) (fun gs p => gs.powerUpAnimate p delta) gs

/-! ## Game-state construction (`GameState.__init__`) -/

/-- One star of `Starfield.__init__`, consuming four uniform draws
(position x/y, brightness, the size choice from `[1, 1, 1, 2]`). -/
def mkStar (rng : ℕ → ℚ) (idx : ℕ) (star_id : ℕ) : Star :=
  let x := -2 + ((NUM_WEEKS : ℚ) + 2 - (-2)) * rng idx
  let y := -3 + ((SHIP_POSITION_Y : ℚ) + 4 - (-3)) * rng (idx + 1)
  let brightness := 2/10 + (1 - 2/10) * rng (idx + 2)
  let size : ℕ := if pyTrunc (rng (idx + 3) * 4) ≤ 2 then 1 else 2
  { star_id := star_id, x := x, y := y, brightness := brightness, size := size,
    speed := STAR_SPEED_MIN + brightness * (STAR_SPEED_MAX - STAR_SPEED_MIN) }

/-- `Starfield.__init__`: 100 stars drawn from the generator. -/
def starfieldInit (rng : ℕ → ℚ) : List Star :=
  (List.range 100).map fun i => mkStar rng (4 * i) i

/-- The `(week, day, level)` cells in week-major order. -/
def gridLevels (data : ContributionData) : List (ℕ × ℕ × ℤ) :=
  data.weeks.enum.flatMap fun wi =>
    wi.2.days.enum.map fun di => (wi.1, di.1, di.2.level)

/-- The boss cell: the strictly-highest contribution level, first in
week-major order (`_initialize_enemies` step 1). -/
def bossCell (data : ContributionData) : ℤ × ℤ × ℤ :=
  (gridLevels data).foldl
    (fun acc cell =>
      if acc.2.2 < cell.2.2 then ((cell.1 : ℤ), (cell.2.1 : ℤ), cell.2.2) else acc)
    (-1, -1, 0)

/-- `_initialize_enemies` step 2: one enemy per positive cell, the boss
cell getting `max 1 (3 * boss_health)` health. -/
def initialEnemies (data : ContributionData) : List Enemy :=
  let bc := bossCell data
  ((gridLevels data).foldl
    (fun (acc : List Enemy × ℕ) (cell : ℕ × ℕ × ℤ) =>
      let (es, nid) := acc
      if cell.2.2 ≤ 0 then (es, nid)
      else if (cell.1 : ℤ) = bc.1 ∧ (cell.2.1 : ℤ) = bc.2.1 then
        (es ++ [Enemy.mkBoss nid (cell.1 : ℤ) (cell.2.1 : ℤ) (max 1 (bc.2.2 * 3))], nid + 1)
      else
        (es ++ [Enemy.mkRegular nid (cell.1 : ℤ) (cell.2.1 : ℤ) cell.2.2], nid + 1))
    ([], 0)).1

/-- `GameState.__init__(contribution_data)` as in the sources: the
starfield draws from the ambient process-wide generator (`Starfield()`
with no seed), modelled here as an explicit stream argument. -/
def GameState.init (data : ContributionData) (ambient : ℕ → ℚ) : GameState :=
  let enemies := initialEnemies data
  { stars := starfieldInit ambient,
    rng := ambient,
    rngIdx := 400,
    ship := Ship.init,
    enemies := enemies,
    bullets := [], explosions := [], power_ups := [], score := 0,
    nextId := enemies.length }

/-! ## Actions and the weighted-random strategy
(`strategies/base_strategy.py`, `strategies/random_strategy.py`) -/

/-- `Action`: a move target with an optional shot.  The field is
annotated `int` in the source but receives `enemy.x`, which is a float
for the moving boss, so it is modelled as `ℚ`. -/
structure Action where
  x : ℚ
  shoot : Bool
  deriving Repr, DecidableEq

/-- Stable insertion sort (Python's `sorted` is stable: a later element
is inserted after every element whose key is `≤` its own). -/
def stableInsert (le : α → α → Bool) (a : α) : List α → List α
  | [] => [a]
  | b :: l => if le b a then b :: stableInsert le a l else a :: b :: l

def stableSort (le : α → α → Bool) : List α → List α
  | [] => []
  | a :: l => stableInsert le a (stableSort le l)

/-- First-occurrence deduplication, determinizing the iteration order of
the Python set `{enemy.x for enemy in game_state.enemies}`. -/
def dedupFirst [DecidableEq α] : List α → List α
  | [] => []
  | a :: l => a :: (dedupFirst l).filter (· ≠ a)

/-- `RandomStrategy._candidate_columns`: live columns sorted by distance
from the ship, restricted to the 8 nearest. -/
def candidateColumns (gs : GameState) : List ℚ :=
  let cols := dedupFirst (gs.enemies.map (·.x))
  (stableSort (fun a b => |a - gs.ship.x| ≤ |b - gs.ship.x|) cols).take 8

/-- `RandomStrategy._distance_weight`. -/
def distanceWeight (d : ℚ) : ℤ :=
  if d = 0 then 10 else if 1 ≤ d ∧ d ≤ 3 then 100 else 1

/-- `RandomStrategy._lowest_enemy_in_column`: `max` by `y`, first
maximum on ties as in Python. -/
def lowestEnemyInColumn (gs : GameState) (col : ℚ) : Option Enemy :=
  (gs.enemies.filter (fun e => e.x = col)).foldl
    (fun best e =>
      match best with
      | none => some e
      | some b => if b.y < e.y then some e else some b)
    none

/-- `RandomStrategy._shoot_column`: exactly `shots` shoot actions at the
target column. -/
def shootColumn (col : ℚ) (shots : ℤ) : List Action :=
  List.replicate shots.toNat { x := col, shoot := true }

/-- One round of `RandomStrategy.generate_actions` once the RNG has
chosen `col`: the actions yielded before the strategy re-chooses. -/
def randomStrategyRound (gs : GameState) (col : ℚ) : List Action :=
  match lowestEnemyInColumn gs col with
  | some e => shootColumn col e.health
  | none => []

/-- Total health of the enemies in a column (what "emptying the full
column" would require, one shot per health point). -/
def columnTotalHealth (gs : GameState) (col : ℚ) : ℤ :=
  ((gs.enemies.filter (fun e => e.x = col)).map (·.health)).sum

/-! ## The frame-step generator (`Animator._frame_steps`)

The generator is modelled as a deterministic step machine; one `mstep`
performs one engine tick or one control transition of `_frame_steps`,
and `yields` counts the frames yielded so far.  The policy is a pure
stream `ℕ → Option Action` (`none` = iterator exhausted); the claims
quantify over policies, including never-exhausted ones. -/

inductive Phase where
  | start
  | fetch (k : ℕ)
  | waiting (k : ℕ)
  | completion (c : ℕ)
  | settle (j : ℕ)
  | done
  deriving Repr, DecidableEq

structure SimConfig where
  gs : GameState
  phase : Phase
  yields : ℕ

def initConfig (gs : GameState) : SimConfig :=
  { gs := gs, phase := .start, yields := 0 }

/-- One step of `_frame_steps`: the initial yield, the per-action
move/wait/shoot protocol, the force-stop-bounded completion loop
(`force_kill_countdown = 100`), and the 5 settle frames. -/
def mstep (policy : ℕ → Option Action) (delta : ℚ) (c : SimConfig) : SimConfig :=
  match c.phase with
  | .start => { c with yields := c.yields + 1, phase := .fetch 0 }
  | .fetch k =>
      match policy k with
      | some a =>
          { c with gs := { c.gs with ship := c.gs.ship.move_to a.x },
                   phase := .waiting k }
      | none => { c with phase := .completion 100 }
  | .waiting k =>
      if c.gs.can_take_action then
        match policy k with
        | some a =>
            if a.shoot then
              { c with gs := (c.gs.shoot).animate delta, yields := c.yields + 1,
                       phase := .fetch (k + 1) }
            else { c with phase := .fetch (k + 1) }
        | none => { c with phase := .fetch (k + 1) }
      else
        { c with gs := c.gs.animate delta, yields := c.yields + 1,
                 phase := .waiting k }
  | .completion cnt =>
      if c.gs.is_complete then { c with phase := .settle 5 }
      else
        let gs := c.gs.animate delta
        if cnt ≤ 1 then { c with gs := gs, yields := c.yields + 1, phase := .settle 5 }
        else { c with gs := gs, yields := c.yields + 1, phase := .completion (cnt - 1) }
  | .settle j =>
      if j = 0 then { c with phase := .done }
      else { c with yields := c.yields + 1, phase := .settle (j - 1) }
  | .done => c

/-- Frames remaining in the bounded tail of the generator (a completion
phase always yields at least one frame before moving on, hence the
`max`). -/
def phaseBudget : Phase → ℕ
  | .completion c => max c 1 + 5
  | .settle j => j
  | _ => 0

def isTailPhase : Phase → Prop
  | .completion _ => True
  | .settle _ => True
  | .done => True
  | _ => False

/-- The adversarial policy for the termination claim: alternate the two
far columns forever, never shooting, never exhausting. -/
def advPolicy (k : ℕ) : Option Action :=
  some { x := if k % 2 = 0 then 0 else 51, shoot := false }

/-- The empty contribution grid (the `test_scoring.py` fixture). -/
def emptyData : ContributionData := { weeks := [] }

/-- A concrete ambient-random stream. -/
def halfStream : ℕ → ℚ := fun _ => 1/2

def advGs : GameState := GameState.init emptyData halfStream

def advConfig (n : ℕ) : SimConfig := (mstep advPolicy 1)^[n] (initConfig advGs)

/-- The target column the adversarial policy requests at fetch index
`k`. -/
def advTarget (k : ℕ) : ℚ := if k % 2 = 0 then 0 else 51

/-! ## Seeded construction (`simulation_runtime.py` vs `game_state.py`)

`create_seeded_game_state` calls `GameState(contribution_data,
rng=game_rng)`, but `GameState.__init__` in the sources accepts only
`contribution_data`.  Python call semantics for the modelled signature: a
keyword argument that matches no parameter raises `TypeError`. -/

def gameStateInitParams : List String := ["contribution_data"]

def pyCallKwargsCheck (params : List String) (kwargs : List String) :
    Except String Unit :=
  match kwargs.find? (fun k => !params.contains k) with
  | some k => .error ("TypeError: __init__() got an unexpected keyword argument " ++ k)
  | none => .ok ()

/-- `create_seeded_game_state`: derives the strategy/world sub-streams
from the master seed and then performs the keyword call into
`GameState.__init__`.  The RNG values are irrelevant to the call check
and are left abstract. -/
def create_seeded_game_state (data : ContributionData) (seed : ℤ)
    (ambient : ℕ → ℚ) : Except String GameState :=
  match pyCallKwargsCheck gameStateInitParams ["rng"] with
  | .error e => .error e
  | .ok _ => .ok (GameState.init data ambient)

/-! ## Track compressors (`output/_svg_tracks.py`) -/

/-- Shared inner loop of `_tl_compress_scalar_track` and
`_tl_compress_discrete_track` (they differ only in the duplicate test:
`skip v last` drops the sample).  The accumulator is kept reversed so
its head is Python's `compact_*[-1]`; same-timestamp samples overwrite
the last kept value. -/
def compressLoop (skip : α → α → Bool) : List (ℤ × α) → List (ℤ × α) → List (ℤ × α)
  | [], acc => acc.reverse
  | (t, v) :: rest, [] => compressLoop skip rest [(t, v)]
  | (t, v) :: rest, (lt, lv) :: accTail =>
      if t = lt then compressLoop skip rest ((lt, v) :: accTail)
      else if skip v lv then compressLoop skip rest ((lt, lv) :: accTail)
      else compressLoop skip rest ((t, v) :: (lt, lv) :: accTail)

/-- `_tl_compress_scalar_track` (eps defaults to `1e-9` at call sites):
near-equal consecutive values collapse. -/
def tlCompressScalarTrack (times : List ℤ) (values : List ℚ) (eps : ℚ) :
    List ℤ × List ℚ :=
  if times = [] ∨ values = [] ∨ times.length ≠ values.length then ([0], [0])
  else
    match times, values with
    | t0 :: ts, v0 :: vs =>
        let pairs := compressLoop (fun v lv => decide (pyAbs (v - lv) ≤ eps)) (ts.zip vs) [(t0, v0)]
        (pairs.map (·.1), pairs.map (·.2))
    | _, _ => ([0], [0])

/-- `_tl_compress_discrete_track` generalized over the value type; the
source's `"#000000"` fallback becomes the `dflt` argument. -/
def tlCompressDiscreteTrack [DecidableEq α] (times : List ℤ) (values : List α)
    (dflt : α) : List ℤ × List α :=
  if times = [] ∨ values = [] ∨ times.length ≠ values.length then
    ([0], [values.headD dflt])
  else
    match times, values with
    | t0 :: ts, v0 :: vs =>
        let pairs := compressLoop (fun v lv => decide (v = lv)) (ts.zip vs) [(t0, v0)]
        (pairs.map (·.1), pairs.map (·.2))
    | _, _ => ([0], [values.headD dflt])

/-- Kept indices of `_tl_compress_linear_scalar_track`. -/
def linearKeepIdx (times : List ℤ) (values : List ℚ) (forced : List ℕ) (eps : ℚ) :
    List ℕ :=
  let t := fun i => times.getD i 0
  let v := fun i => values.getD i 0
  let middle := List.range' 1 (values.length - 2)
  0 :: (middle.filter fun i =>
    if i ∈ forced then true
    else if t i = t (i - 1) ∨ t (i + 1) = t i then true
    else
      let slope1 := (v i - v (i - 1)) / ((t i : ℚ) - (t (i - 1) : ℚ))
      let slope2 := (v (i + 1) - v i) / ((t (i + 1) : ℚ) - (t i : ℚ))
      eps < |slope1 - slope2|) ++ [values.length - 1]

/-- `_tl_compress_linear_scalar_track`. -/
def tlCompressLinearScalarTrack (times : List ℤ) (values : List ℚ)
    (forced : List ℕ) (eps : ℚ) : List ℤ × List ℚ :=
  if times = [] ∨ values = [] ∨ times.length ≠ values.length then ([0], [0])
  else if times.length ≤ 2 then (times, values)
  else
    let keep := linearKeepIdx times values forced eps
    (keep.map (times.getD · 0), keep.map (values.getD · 0))

/-- Kept indices of `_tl_compress_points_with_forced` (a point is kept
when either axis's slope changes). -/
def pointsKeepIdx (points : List (ℚ × ℚ)) (times : List ℤ) (forced : List ℕ)
    (eps : ℚ) : List ℕ :=
  let t := fun i => times.getD i 0
  let p := fun i => points.getD i (0, 0)
  let middle := List.range' 1 (points.length - 2)
  0 :: (middle.filter fun i =>
    if i ∈ forced then true
    else if t i = t (i - 1) ∨ t (i + 1) = t i then true
    else
      let dx1 := ((p i).1 - (p (i - 1)).1) / ((t i : ℚ) - (t (i - 1) : ℚ))
      let dy1 := ((p i).2 - (p (i - 1)).2) / ((t i : ℚ) - (t (i - 1) : ℚ))
      let dx2 := ((p (i + 1)).1 - (p i).1) / ((t (i + 1) : ℚ) - (t i : ℚ))
      let dy2 := ((p (i + 1)).2 - (p i).2) / ((t (i + 1) : ℚ) - (t i : ℚ))
      eps < |dx1 - dx2| ∨ eps < |dy1 - dy2|) ++ [points.length - 1]

/-- `_tl_compress_points_with_forced`. -/
def tlCompressPointsWithForced (points : List (ℚ × ℚ)) (times : List ℤ)
    (forced : List ℕ) (eps : ℚ) : List (ℚ × ℚ) × List ℤ :=
  if points.length ≤ 2 then (points, times)
  else
    let keep := pointsKeepIdx points times forced eps
    (keep.map (points.getD · (0, 0)), keep.map (times.getD · 0))

/-- Step ("hold last keyframe") decompression: the value a discrete or
scalar track presents at time `tq`. -/
def stepValueAt [Inhabited α] (times : List ℤ) (values : List α) (tq : ℤ) : α :=
  (times.zip values).foldl
    (fun acc tv => if tv.1 ≤ tq then tv.2 else acc)
    (values.headD default)

/-! ## Slot multiplexing (`_tl_build_object_slot_tracks`) -/

structure SlotState (β : Type) where
  slot_tracks : List (List (Option β))
  active : List (String × ℕ)
  free : List ℕ

def SlotState.initial (β : Type) : SlotState β :=
  { slot_tracks := [], active := [], free := [] }

/-- Free the slots of every active id absent from the current frame
(`ended_ids` handling), then re-sort the free pool. -/
def slotFreeEnded (st : SlotState β) (current : List String) : SlotState β :=
  let ended := st.active.filter (fun a => !current.contains a.1)
  { st with
    active := st.active.filter (fun a => current.contains a.1),
    free := stableSort (fun a b => a ≤ b) (st.free ++ ended.map (·.2)) }

/-- Assign a slot to every newly appearing id, lowest free slot first,
ids visited in string-sorted order as in the source. -/
def slotAssignNew (st : SlotState β) (frame_index : ℕ) (current : List String) :
    SlotState β :=
  (stableSort (fun a b => decide (a < b)) current).foldl
    (fun st oid =>
      if (st.active.lookup oid).isSome then st
      else
        match st.free with
        | s :: rest => { st with active := st.active ++ [(oid, s)], free := rest }
        | [] =>
            { st with
              active := st.active ++ [(oid, st.slot_tracks.length)],
              slot_tracks := st.slot_tracks ++ [List.replicate frame_index none] })
    st

/-- One frame of `_tl_build_object_slot_tracks`. -/
def slotFrameStep (reuse : Bool) (acc : SlotState β × ℕ)
    (frame_map : List (String × β)) : SlotState β × ℕ :=
  let (st, frame_index) := acc
  let current := frame_map.map (·.1)
  let st := if reuse then slotFreeEnded st current else st
  let st := slotAssignNew st frame_index current
  let st := { st with slot_tracks := st.slot_tracks.map (· ++ [none]) }
  let st := frame_map.foldl
    (fun st idp =>
      match st.active.lookup idp.1 with
      | some s =>
          { st with
            slot_tracks :=
              st.slot_tracks.set s
                ((st.slot_tracks.getD s []).dropLast ++ [some idp.2]) }
      | none => st)
    st
  let st := if reuse then st else slotFreeEnded st current
  (st, frame_index + 1)

/-- `_tl_build_object_slot_tracks`. -/
def tlBuildObjectSlotTracks (frame_maps : List (List (String × β)))
    (reuse : Bool) : List (List (Option β)) :=
  ((frame_maps.foldl (slotFrameStep reuse) (SlotState.initial β, 0)).1).slot_tracks

/-- The per-frame slot occupancy: after each frame's assignment phase,
the ids present in that frame together with their slots. -/
def slotOccupancyTrace (frame_maps : List (List (String × β)))
    (reuse : Bool) : List (List (String × ℕ)) :=
  (frame_maps.foldl
    (fun (acc : SlotState β × ℕ × List (List (String × ℕ))) frame_map =>
      let (st, frame_index, trace) := acc
      let (st', fi') := slotFrameStep reuse (st, frame_index) frame_map
      let current := frame_map.map (·.1)
      (st', fi', trace ++ [st'.active.filter (fun a => current.contains a.1)]))
    (SlotState.initial β, 0, [])).2.2

/-- Well-formedness of the slot-assignment state: active slots are
pairwise distinct, the free pool is duplicate-free and disjoint from the
active slots, and every known slot indexes into `slot_tracks`. -/
def SlotInv (st : SlotState β) : Prop :=
  (st.active.map (·.2)).Nodup ∧ st.free.Nodup ∧
  (∀ s ∈ st.free, s ∉ st.active.map (·.2)) ∧
  (∀ s ∈ st.free, s < st.slot_tracks.length) ∧
  (∀ s ∈ st.active.map (·.2), s < st.slot_tracks.length)

/-! ## Auxiliary observation functions used by the theorems -/

/-- The ids of the bullets actually animated during one bullet phase, in
processing order (the live-list iteration instrumented). -/
def bulletLoopTrace (delta : ℚ) : ℕ → ℕ → GameState → List ℕ
  | 0, _, _ => []
  | fuel + 1, i, gs =>
      match gs.bullets[i]? with
      | none => []
      | some b => b.bid :: bulletLoopTrace delta fuel (i + 1) (gs.bulletAnimate b delta)

def bulletPhaseTrace (gs : GameState) (delta : ℚ) : List ℕ :=
  bulletLoopTrace delta gs.bullets.length 0 gs

/-- Two ship bullets both one tick away from the off-screen threshold:
the concrete state separating live-list iteration from snapshot
iteration. -/
def c3Gs : GameState :=
  { stars := [], rng := halfStream, rngIdx := 0, ship := Ship.init,
    enemies := [],
    bullets :=
      [{ bid := 0, x := 3, y := -9, kind := .ship, speed := 0 },
       { bid := 1, x := 4, y := -9, kind := .ship, speed := 0 }],
    explosions := [], power_ups := [], score := 0, nextId := 2 }

/-- A column holding two enemies: the weighted-random policy's round
destroys only the lower one before re-choosing. -/
def c5Gs : GameState :=
  { stars := [], rng := halfStream, rngIdx := 0, ship := Ship.init,
    enemies :=
      [Enemy.mkRegular 0 0 0 1, Enemy.mkRegular 1 0 1 1],
    explosions := [], bullets := [], power_ups := [], score := 0, nextId := 2 }

/-- A game state with no live entities and a settled, ready ship: the
collections the adversarial run keeps empty. -/
def Quiet (gs : GameState) : Prop :=
  gs.enemies = [] ∧ gs.bullets = [] ∧ gs.explosions = [] ∧ gs.power_ups = [] ∧
    gs.ship.shoot_cooldown ≤ 0

/-- Invariant of the adversarial run: the world stays quiet and the
machine never leaves the action phases (so the force-stop tail is never
entered); in a waiting phase the ship's target is the requested
column. -/
def AdvInv (c : SimConfig) : Prop :=
  Quiet c.gs ∧
    (c.phase = .start ∨ (∃ k, c.phase = .fetch k) ∨
      (∃ k, c.phase = .waiting k ∧ c.gs.ship.target_x = advTarget k))

/-! ## SVG entity minifier (`_svg_entity_minifier.py`, `_svg_shared.py`) -/

/-- Tail-recursive list length, used for fuel so that evaluation
stays iterative. -/
def lenAcc : ℕ → List Char → ℕ
  | n, [] => n
  | n, _ :: l => lenAcc (n + 1) l

def compactDigits : List Char :=
  "abcdefghijklmnopqrstuvwxyzABCDEFGHIJKLMNOPQRSTUVWXYZ".data

def toCompactAux : ℕ → ℕ → List Char
  | 0, _ => []
  | fuel + 1, current =>
      let r := current % 52
      let q := current / 52
      let c := compactDigits.getD r 'a'
      if q = 0 then [c] else c :: toCompactAux fuel (q - 1)

/-- `_to_compact_name` (`_svg_shared.py`): bijective base-52 naming over
`a..z A..Z`. -/
def toCompactName (value : ℕ) : String :=
  if value = 0 then "a" else String.mk (toCompactAux value value).reverse

def predefinedEntities : List String := ["lt", "gt", "amp", "apos", "quot"]

def nextNameAux : ℕ → ℕ → List String → String × ℕ
  | 0, cur, _ => (toCompactName cur, cur + 1)
  | fuel + 1, cur, used =>
      let cand := toCompactName cur
      if used.contains cand then nextNameAux fuel (cur + 1) used
      else (cand, cur + 1)

/-- `_tl_next_available_entity_name`; the unbounded `while` terminates
within `used.length + 1` candidates because compact names are distinct
across indices, which the fuel mirrors. -/
def nextAvailableEntityName (idx : ℕ) (used : List String) : String × ℕ :=
  nextNameAux (used.length + 1) idx used

/-- Python `\s` on the ASCII range. -/
def pyIsSpace (c : Char) : Bool :=
  c = ' ' || c = '\t' || c = '\n' || c = '\r' || c = '\x0b' || c = '\x0c'

def isEntNameStart (c : Char) : Bool := c.isAlpha || c = '_' || c = ':'

/-- The `[-\w:.]` class of `_XML_ATTR_VALUE_RE` on ASCII. -/
def isEntNameChar (c : Char) : Bool :=
  c = '-' || c.isAlphanum || c = '_' || c = ':' || c = '.'

/-- One attempted match of `_XML_ATTR_VALUE_RE` at the head of the
input: whitespace, an XML name, then the quoted value.  Returns the
captured value and the input remaining after the match. -/
def tryAttrMatch : List Char → Option (List Char × List Char)
  | [] => none
  | c :: rest =>
      if pyIsSpace c then
        match rest with
        | [] => none
        | d :: rest2 =>
            if isEntNameStart d then
              match rest2.dropWhile isEntNameChar with
              | '=' :: '"' :: rest4 =>
                  let val := rest4.takeWhile (fun e => !(e = '"'))
                  match rest4.dropWhile (fun e => !(e = '"')) with
                  | '"' :: rest6 => some (val, rest6)
                  | _ => none
              | _ => none
            else none
      else none

def findAttrValuesAux : ℕ → List Char → List (List Char)
  | 0, _ => []
  | _ + 1, [] => []
  | fuel + 1, c :: rest =>
      match tryAttrMatch (c :: rest) with
      | some (v, rest2) => v :: findAttrValuesAux fuel rest2
      | none => findAttrValuesAux fuel rest

/-- `_XML_ATTR_VALUE_RE.finditer`: all captured attribute values, left
to right, each search resuming after the previous match. -/
def findAttrValues (s : List Char) : List (List Char) :=
  findAttrValuesAux (lenAcc 0 s) s

def bumpCount : List (List Char × ℕ) → List Char → List (List Char × ℕ)
  | [], v => [(v, 1)]
  | (k, n) :: rest, v =>
      if k = v then (k, n + 1) :: rest else (k, n) :: bumpCount rest v

/-- The `counts` dict of `_tl_entity_minify`, in insertion order. -/
def attrCounts (s : List Char) : List (List Char × ℕ) :=
  (findAttrValues s).foldl bumpCount []

def listCharLt : List Char → List Char → Bool
  | [], [] => false
  | [], _ :: _ => true
  | _ :: _, [] => false
  | c :: a, d :: b =>
      if c.val < d.val then true
      else if d.val < c.val then false
      else listCharLt a b

/-- The `ordered_values` sort key: descending `count*len`, descending
count, descending length, then the value ascending. -/
def orderedLe (a b : List Char × ℕ) : Bool :=
  if a.2 * a.1.length ≠ b.2 * b.1.length then b.2 * b.1.length < a.2 * a.1.length
  else if a.2 ≠ b.2 then b.2 < a.2
  else if a.1.length ≠ b.1.length then b.1.length < a.1.length
  else !(listCharLt b.1 a.1)

def entityRef (name : String) : List Char := ('&' :: name.data) ++ [';']

def entityDefinition (name : String) (value : List Char) : List Char :=
  "<!ENTITY ".data ++ name.data ++ " \"".data ++ value ++ "\">".data

/-- `count * (len(value) - len(entity_ref)) - len(definition)`, in ℤ. -/
def entitySavings (count : ℕ) (name : String) (value : List Char) : ℤ :=
  (count : ℤ) * ((value.length : ℤ) - ((entityRef name).length : ℤ)) -
    ((entityDefinition name value).length : ℤ)

/-- The main selection loop of `_tl_entity_minify`: values occurring at
least twice get the next free compact name when the rewrite saves
bytes; a skipped value does not consume its candidate name. -/
def selectValuesLoop :
    List (List Char × ℕ) → ℕ → List String → List (String × List Char) →
      List (String × List Char) × ℕ × List String
  | [], idx, used, sel => (sel, idx, used)
  | (value, count) :: rest, idx, used, sel =>
      if count < 2 then selectValuesLoop rest idx used sel
      else
        let nm := nextAvailableEntityName idx used
        if entitySavings count nm.1 value ≤ 0 then
          selectValuesLoop rest idx used sel
        else
          selectValuesLoop rest nm.2 (used ++ [nm.1]) (sel ++ [(nm.1, value)])

def sortValuesByLenDesc (l : List (List Char)) : List (List Char) :=
  stableSort (fun a b => b.length ≤ a.length) l

def lookupEntity : List (String × List Char) → List Char → Option String
  | [], _ => none
  | (n, v) :: rest, value => if v = value then some n else lookupEntity rest value

def tryAltRepl (sel : List (String × List Char)) :
    List (List Char) → List Char → Option (String × List Char)
  | [], _ => none
  | v :: alts, s =>
      if (v ++ ['"']).isPrefixOf s then
        match lookupEntity sel v with
        | some n => some (n, s.drop (v.length + 1))
        | none => tryAltRepl sel alts s
      else tryAltRepl sel alts s

/-- The single-pass bulk substitution `="(v1|…|vn)"` → `="&name;"`,
longest alternatives tried first. -/
def bulkReplaceAux (sel : List (String × List Char)) (alts : List (List Char)) :
    ℕ → List Char → List Char
  | 0, s => s
  | _ + 1, [] => []
  | fuel + 1, c :: s =>
      match c, s with
      | '=', '"' :: s2 =>
          match tryAltRepl sel alts s2 with
          | some (n, rest) =>
              '=' :: '"' :: (entityRef n ++ ('"' :: bulkReplaceAux sel alts fuel rest))
          | none => '=' :: bulkReplaceAux sel alts fuel ('"' :: s2)
      | _, _ => c :: bulkReplaceAux sel alts fuel s

def bulkReplace (sel : List (String × List Char)) (alts : List (List Char))
    (s : List Char) : List Char :=
  bulkReplaceAux sel alts (lenAcc 0 s) s

def valuesMarker : List Char := "values=\"".data

def keyTimesMarker : List Char := "keyTimes=\"".data

/-- `_tl_iter_prefix_attribute_values`: scan for `values="…"` and
`keyTimes="…"` occurrences preceded by whitespace, collecting the
quoted values; an unterminated value stops the scan. -/
def iterPfxAux : ℕ → Bool → List Char → List (String × List Char)
  | 0, _, _ => []
  | fuel + 1, prevSpace, s =>
      if valuesMarker.isPrefixOf s && prevSpace then
        let afterMarker := s.drop valuesMarker.length
        let val := afterMarker.takeWhile (fun e => !(e = '"'))
        match afterMarker.dropWhile (fun e => !(e = '"')) with
        | '"' :: r2 => ("values", val) :: iterPfxAux fuel false r2
        | _ => []
      else if keyTimesMarker.isPrefixOf s && prevSpace then
        let afterMarker := s.drop keyTimesMarker.length
        let val := afterMarker.takeWhile (fun e => !(e = '"'))
        match afterMarker.dropWhile (fun e => !(e = '"')) with
        | '"' :: r2 => ("keyTimes", val) :: iterPfxAux fuel false r2
        | _ => []
      else
        match s with
        | [] => []
        | c :: r => iterPfxAux fuel (pyIsSpace c) r

def iterPfxAttributeValues (s : List Char) : List (String × List Char) :=
  iterPfxAux (lenAcc 0 s) false s

def bumpPairCountBy :
    List ((String × List Char) × ℕ) → (String × List Char) → ℕ →
      List ((String × List Char) × ℕ)
  | [], k, m => [(k, m)]
  | (k0, n) :: rest, k, m =>
      if k0 = k then (k0, n + m) :: rest else (k0, n) :: bumpPairCountBy rest k m

/-- The `attribute_value_counts` dict: values containing `&` or lacking
`;` are skipped. -/
def pfxAttrValueCounts (s : List Char) : List ((String × List Char) × ℕ) :=
  ((iterPfxAttributeValues s).filter
      (fun av => !(av.2.contains '&') && av.2.contains ';')).foldl
    (fun acc av => bumpPairCountBy acc av 1) []

/-- Positions of the first 320 semicolons of a value. -/
def semicolonPositions (v : List Char) : List ℕ :=
  ((v.enum.filter (fun ic => ic.2 = ';')).map (fun ic => ic.1)).take 320

/-- The `prefix_counts` accumulation: cut points are semicolon positions
from the fourth onwards that lie at index ≥ 30; values need at least 5
semicolons. -/
def addPfxCounts (acc : List ((String × List Char) × ℕ))
    (entry : (String × List Char) × ℕ) : List ((String × List Char) × ℕ) :=
  let ps := semicolonPositions entry.1.2
  if ps.length < 5 then acc
  else
    (ps.drop 3).foldl
      (fun acc pos =>
        if pos < 30 then acc
        else bumpPairCountBy acc (entry.1.1, entry.1.2.take pos) entry.2)
      acc

def pfxCounts (s : List Char) : List ((String × List Char) × ℕ) :=
  (pfxAttrValueCounts s).foldl addPfxCounts []

def bestPfxLoop (name : String) :
    List ((String × List Char) × ℕ) → Option (String × List Char) → ℤ →
      Option (String × List Char)
  | [], best, _ => best
  | (key, count) :: rest, best, bestSav =>
      if count < 2 then bestPfxLoop name rest best bestSav
      else
        let sav := entitySavings count name key.2
        if sav ≤ 0 then bestPfxLoop name rest best bestSav
        else if bestSav < sav then bestPfxLoop name rest (some key) sav
        else bestPfxLoop name rest best bestSav

/-- `_tl_best_prefix_entity_candidate`. -/
def bestPfxEntityCandidate (s : List Char) (name : String) :
    Option (String × List Char) :=
  if pfxAttrValueCounts s = [] then none
  else bestPfxLoop name (pfxCounts s) none 0

/-- `pattern.subn` for `(\s{attr}="){prefix}` → `\1&name;`: rewrites
every occurrence and counts the replacements. -/
def pfxReplAux (attr : List Char) (pfx : List Char) (ref : List Char) :
    ℕ → List Char → List Char × ℕ
  | 0, s => (s, 0)
  | _ + 1, [] => ([], 0)
  | fuel + 1, c :: s =>
      if pyIsSpace c && (attr ++ ('=' :: '"' :: pfx)).isPrefixOf s then
        let out := pfxReplAux attr pfx ref fuel (s.drop (attr.length + 2 + pfx.length))
        (c :: ((attr ++ ('=' :: '"' :: ref)) ++ out.1), out.2 + 1)
      else
        let out := pfxReplAux attr pfx ref fuel s
        (c :: out.1, out.2)

/-- The bounded (20-iteration) prefix-entity loop of
`_tl_entity_minify`; note the substitution result is kept even when
fewer than two replacements happened. -/
def pfxLoop :
    ℕ → List Char → ℕ → List String → List (String × List Char) →
      List Char × List (String × List Char)
  | 0, minimized, _, _, sel => (minimized, sel)
  | iter + 1, minimized, idx, used, sel =>
      let nm := nextAvailableEntityName idx used
      match bestPfxEntityCandidate minimized nm.1 with
      | none => (minimized, sel)
      | some (attr, pfx) =>
          let out := pfxReplAux attr.data pfx (entityRef nm.1) (lenAcc 0 minimized) minimized
          if out.2 < 2 then pfxLoop iter out.1 idx used sel
          else pfxLoop iter out.1 nm.2 (used ++ [nm.1]) (sel ++ [(nm.1, pfx)])

/-- `re.match(r"^\<\?xml[^>]+\?\>", s)`: the XML declaration and the
rest, when the document starts with one. -/
def xmlDeclSplit (s : List Char) : Option (List Char × List Char) :=
  match s with
  | '<' :: '?' :: 'x' :: 'm' :: 'l' :: rest =>
      let run := rest.takeWhile (fun c => !(c = '>'))
      match rest.drop run.length with
      | '>' :: tail =>
          if 2 ≤ run.length && run.getLast? = some '?' then
            some (('<' :: '?' :: 'x' :: 'm' :: 'l' :: run) ++ ['>'], tail)
          else none
      | _ => none
  | _ => none

/-- `_tl_entity_minify` (`_svg_entity_minifier.py`). -/
def tlEntityMinify (svg_markup : String) : String :=
  let s := svg_markup.data
  if s = [] then svg_markup
  else
    let counts := attrCounts s
    if counts = [] then svg_markup
    else
      let ordered := stableSort orderedLe counts
      let step := selectValuesLoop ordered 0 predefinedEntities []
      let minimized :=
        if step.1 = [] then s
        else bulkReplace step.1 (sortValuesByLenDesc (step.1.map (fun nv => nv.2))) s
      let fin := pfxLoop 20 minimized step.2.1 step.2.2 step.1
      if fin.2 = [] then svg_markup
      else
        let entityDefs := (fin.2.map fun nv => entityDefinition nv.1 nv.2).join
        let doctype := "<!DOCTYPE svg [".data ++ entityDefs ++ "]>".data
        match xmlDeclSplit fin.1 with
        | none => String.mk (doctype ++ fin.1)
        | some (decl, rest) => String.mk (decl ++ doctype ++ rest)

/-- Shared 30-character prefix (three early semicolons, the fourth at
index 30) of the two `values` attributes of the idempotence
counterexample. -/
def c9Pfx : List Char := "a;b;c;".data ++ List.replicate 24 'd'

def c9SufA : List Char := ";aaaaaaaaaaaaaaa;b".data

def c9SufC : List Char := ";ccccccccccccccc;d".data

/-- The idempotence counterexample document: the prefix-entity pass of
the first minification rewrites both `values` attributes to start with
`&a;`, making the first one equal to the pre-existing literal `d`
value, so the second minification finds that value twice and rewrites
again. -/
def c9Doc : String :=
  String.mk
    ("<g values=\"".data ++ c9Pfx ++ c9SufA ++ "\" values=\"".data ++ c9Pfx ++ c9SufC ++
      "\" d=\"&a;".data ++ c9SufA ++ "\"/>".data)

/-! # Theorems -/

theorem pyAbs_eq_abs (q : ℚ) : pyAbs q = |q| := by
  unfold pyAbs
  rcases lt_or_le q 0 with h | h
  · rw [if_pos h, abs_of_neg h]
  · rw [if_neg (not_lt.2 h), abs_of_nonneg h]

/-! ## Ship kinematics lemmas -/

theorem shipCooldownStep_x (s : Ship) (δ : ℚ) : (shipCooldownStep s δ).x = s.x := by
  unfold shipCooldownStep; split <;> rfl

theorem shipCooldownStep_target (s : Ship) (δ : ℚ) :
    (shipCooldownStep s δ).target_x = s.target_x := by
  unfold shipCooldownStep; split <;> rfl

theorem shipRapidStep_x (s : Ship) (δ : ℚ) : (shipRapidStep s δ).x = s.x := by
  simp only [shipRapidStep]
  split
  · split <;> rfl
  · rfl

theorem shipRapidStep_target (s : Ship) (δ : ℚ) :
    (shipRapidStep s δ).target_x = s.target_x := by
  simp only [shipRapidStep]
  split
  · split <;> rfl
  · rfl

theorem collectPowerUp_ship_x (gs : GameState) :
    gs.collectPowerUp.ship.x = gs.ship.x := by
  unfold GameState.collectPowerUp; split <;> rfl

theorem collectPowerUp_ship_target (gs : GameState) :
    gs.collectPowerUp.ship.target_x = gs.ship.target_x := by
  unfold GameState.collectPowerUp; split <;> rfl

theorem shipMove_target (s : Ship) (δ : ℚ) : (shipMove s δ).target_x = s.target_x := by
  simp only [shipMove]
  split
  · rfl
  · split <;> rfl

theorem shipAnimate_ship_x (gs : GameState) (δ : ℚ) :
    (gs.shipAnimate δ).ship.x = (shipMove gs.ship δ).x := by
  unfold GameState.shipAnimate
  rw [collectPowerUp_ship_x, shipRapidStep_x, shipCooldownStep_x]

theorem shipAnimate_ship_target (gs : GameState) (δ : ℚ) :
    (gs.shipAnimate δ).ship.target_x = gs.ship.target_x := by
  unfold GameState.shipAnimate
  rw [collectPowerUp_ship_target, shipRapidStep_target, shipCooldownStep_target,
    shipMove_target]

theorem SHIP_SPEED_pos : (0 : ℚ) < SHIP_SPEED := by norm_num [SHIP_SPEED]

theorem shipMove_between (s : Ship) (δ : ℚ) (hδ : 0 ≤ δ) :
    min s.x s.target_x ≤ (shipMove s δ).x ∧ (shipMove s δ).x ≤ max s.x s.target_x := by
  have hdx : 0 ≤ SHIP_SPEED * δ := mul_nonneg (le_of_lt SHIP_SPEED_pos) hδ
  simp only [shipMove]
  rcases lt_trichotomy s.x s.target_x with h | h | h
  · rw [if_pos h]
    constructor
    · exact le_trans (min_le_left _ _) (le_min (by linarith) (le_of_lt h))
    · exact le_trans (min_le_right _ _) (le_max_right _ _)
  · rw [if_neg (by simp [h]), if_neg (by simp [h])]
    exact ⟨min_le_left _ _, le_max_left _ _⟩
  · rw [if_neg (not_lt.2 (le_of_lt h)), if_pos h]
    constructor
    · exact le_trans (min_le_right _ _) (le_max_right _ _)
    · exact max_le (le_trans (by linarith) (le_max_left _ _)) (le_max_right _ _)

theorem shipMove_dist (s : Ship) (δ : ℚ) (c : ℚ)
    (h : |s.x - s.target_x| ≤ c + SHIP_SPEED * δ) :
    |(shipMove s δ).x - s.target_x| ≤ max c 0 := by
  simp only [shipMove]
  rcases lt_trichotomy s.x s.target_x with hlt | heq | hgt
  · rw [if_pos hlt]
    rcases le_or_lt s.target_x (s.x + SHIP_SPEED * δ) with hr | hr
    · rw [min_eq_right hr]; simpa using le_max_right c 0
    · rw [min_eq_left (le_of_lt hr)]
      have : |s.x - s.target_x| = s.target_x - s.x := by
        rw [abs_sub_comm]; exact abs_of_nonneg (by linarith)
      rw [this] at h
      have : |s.x + SHIP_SPEED * δ - s.target_x| = s.target_x - (s.x + SHIP_SPEED * δ) := by
        rw [abs_sub_comm]; exact abs_of_nonneg (by linarith)
      rw [this]
      exact le_trans (by linarith) (le_max_left c 0)
  · rw [if_neg (by simp [heq]), if_neg (by simp [heq]), heq]
    simpa using le_max_right c 0
  · rw [if_neg (not_lt.2 (le_of_lt hgt)), if_pos hgt]
    rcases le_or_lt (s.x - SHIP_SPEED * δ) s.target_x with hr | hr
    · rw [max_eq_right hr]; simpa using le_max_right c 0
    · rw [max_eq_left (le_of_lt hr)]
      have : |s.x - s.target_x| = s.x - s.target_x := abs_of_nonneg (by linarith)
      rw [this] at h
      have : |s.x - SHIP_SPEED * δ - s.target_x| = s.x - SHIP_SPEED * δ - s.target_x :=
        abs_of_nonneg (by linarith)
      rw [this]
      exact le_trans (by linarith) (le_max_left c 0)

theorem shipAnimate_reach (δ : ℚ) (hδ : 0 < δ) :
    ∀ (n : ℕ) (gs : GameState),
      |gs.ship.x - gs.ship.target_x| ≤ (n : ℚ) * (SHIP_SPEED * δ) →
      ((fun g => GameState.shipAnimate g δ)^[n] gs).ship.x = gs.ship.target_x := by
  intro n
  induction n with
  | zero =>
      intro gs h
      simp only [Function.iterate_zero, id]
      have := abs_nonneg (gs.ship.x - gs.ship.target_x)
      have h0 : |gs.ship.x - gs.ship.target_x| = 0 := le_antisymm (by simpa using h) this
      have := abs_eq_zero.1 h0
      linarith [sub_eq_zero.1 this]
  | succ n ih =>
      intro gs h
      rw [Function.iterate_succ_apply]
      have htar := shipAnimate_ship_target gs δ
      have hx := shipAnimate_ship_x gs δ
      have hdx : (0 : ℚ) < SHIP_SPEED * δ := mul_pos SHIP_SPEED_pos hδ
      have hd : |(gs.shipAnimate δ).ship.x - (gs.shipAnimate δ).ship.target_x| ≤
          n * (SHIP_SPEED * δ) := by
        rw [htar, hx]
        have hsum : ((n + 1 : ℕ) : ℚ) * (SHIP_SPEED * δ) =
            (n : ℚ) * (SHIP_SPEED * δ) + SHIP_SPEED * δ := by push_cast; ring
        have := shipMove_dist gs.ship δ ((n : ℚ) * (SHIP_SPEED * δ)) (by
          rw [hsum] at h; exact h)
        have hn : max ((n : ℚ) * (SHIP_SPEED * δ)) 0 = n * (SHIP_SPEED * δ) :=
          max_eq_left (by positivity)
        rw [hn] at this
        exact this
      have := ih (gs.shipAnimate δ) hd
      rw [this, htar]

/-- C10: the ship never overshoots its target column — after one
`Ship.animate` with `delta_time ≥ 0` the ship's x stays in the closed
interval spanned by its previous x and `target_x`, the target is
untouched, `is_moving` is false exactly when `x = target_x`, and with a
positive fixed `delta_time` repeated `Ship.animate` calls eventually
leave the ship stationary at `target_x`. -/
theorem ship_no_overshoot (gs : GameState) (δ : ℚ) (hδ : 0 ≤ δ) :
    (min gs.ship.x gs.ship.target_x ≤ (gs.shipAnimate δ).ship.x ∧
      (gs.shipAnimate δ).ship.x ≤ max gs.ship.x gs.ship.target_x) ∧
    (gs.shipAnimate δ).ship.target_x = gs.ship.target_x ∧
    (∀ s : Ship, s.is_moving = false ↔ s.x = s.target_x) ∧
    (0 < δ → ∃ n : ℕ,
      ((fun g => GameState.shipAnimate g δ)^[n] gs).ship.x = gs.ship.target_x ∧
      ((fun g => GameState.shipAnimate g δ)^[n] gs).ship.is_moving = false) := by
  refine ⟨?_, shipAnimate_ship_target gs δ, ?_, ?_⟩
  · rw [shipAnimate_ship_x]; exact shipMove_between gs.ship δ hδ
  · intro s; simp [Ship.is_moving]
  · intro hpos
    have hdx : (0 : ℚ) < SHIP_SPEED * δ := mul_pos SHIP_SPEED_pos hpos
    set d : ℚ := |gs.ship.x - gs.ship.target_x| with hd
    refine ⟨⌈d / (SHIP_SPEED * δ)⌉₊, ?_, ?_⟩
    · apply shipAnimate_reach δ hpos
      rw [← hd]
      have h1 : d / (SHIP_SPEED * δ) ≤ (⌈d / (SHIP_SPEED * δ)⌉₊ : ℚ) := Nat.le_ceil _
      calc d = d / (SHIP_SPEED * δ) * (SHIP_SPEED * δ) := by field_simp
        _ ≤ (⌈d / (SHIP_SPEED * δ)⌉₊ : ℚ) * (SHIP_SPEED * δ) := by
              exact mul_le_mul_of_nonneg_right h1 (le_of_lt hdx)
    · have hx := shipAnimate_reach δ hpos ⌈d / (SHIP_SPEED * δ)⌉₊ gs (by
        have h1 : d / (SHIP_SPEED * δ) ≤ (⌈d / (SHIP_SPEED * δ)⌉₊ : ℚ) := Nat.le_ceil _
        calc |gs.ship.x - gs.ship.target_x| = d := hd.symm
          _ = d / (SHIP_SPEED * δ) * (SHIP_SPEED * δ) := by field_simp
          _ ≤ (⌈d / (SHIP_SPEED * δ)⌉₊ : ℚ) * (SHIP_SPEED * δ) :=
              mul_le_mul_of_nonneg_right h1 (le_of_lt hdx))
      have htar : ∀ m, ((fun g => GameState.shipAnimate g δ)^[m] gs).ship.target_x =
          gs.ship.target_x := by
        intro m
        induction m with
        | zero => rfl
        | succ m ihm =>
            rw [Function.iterate_succ_apply', shipAnimate_ship_target]
            exact ihm
      simp [Ship.is_moving, hx, htar]

/-- C10 witness: a concrete run of the convergence statement. -/
theorem ship_no_overshoot_witness :
    (min c3Gs.ship.x c3Gs.ship.target_x ≤ (c3Gs.shipAnimate 1).ship.x ∧
      (c3Gs.shipAnimate 1).ship.x ≤ max c3Gs.ship.x c3Gs.ship.target_x) ∧
    (c3Gs.shipAnimate 1).ship.target_x = c3Gs.ship.target_x ∧
    (∀ s : Ship, s.is_moving = false ↔ s.x = s.target_x) ∧
    ((0 : ℚ) < 1 → ∃ n : ℕ,
      ((fun g => GameState.shipAnimate g 1)^[n] c3Gs).ship.x = c3Gs.ship.target_x ∧
      ((fun g => GameState.shipAnimate g 1)^[n] c3Gs).ship.is_moving = false) :=
  ship_no_overshoot c3Gs 1 (by norm_num)

/-! ## Boss boundary lemmas -/

theorem bossMove_width (e : Enemy) (δ : ℚ) : (bossMove e δ).width_cells = e.width_cells := by
  simp only [bossMove]
  split
  · rfl
  · split <;> rfl

theorem bossMove_bounds (e : Enemy) (δ : ℚ) (hw : e.width_cells = 3) :
    0 ≤ (bossMove e δ).x ∧ (bossMove e δ).x ≤ (GAME_GRID_WIDTH : ℚ) - 3 := by
  simp only [bossMove, hw]
  split
  · constructor
    · norm_num
    · norm_num [GAME_GRID_WIDTH, NUM_WEEKS]
  · split
    next h2 =>
      constructor
      · norm_num [GAME_GRID_WIDTH, NUM_WEEKS]
      · push_cast; linarith
    next h2 =>
      have h1 : ¬e.x + BOSS_MOVE_SPEED * (e.direction : ℚ) * δ ≤ 0 := by assumption
      push_cast at h2
      constructor
      · dsimp only; linarith [not_le.1 h1]
      · dsimp only; linarith [not_le.1 h2]

/-- C8: over any sequence of `Boss.animate` steps with non-negative
`delta_time`, the boss x stays within `[0, GAME_GRID_WIDTH − 3]` after
every step; it is clamped to the upper bound exactly when its advanced
position reaches it, reversing leftward there, and reverses rightward at
the lower bound. -/
theorem boss_boundary (e : Enemy) (δ : ℚ) (hδ : 0 ≤ δ) (hw : e.width_cells = 3) :
    (0 ≤ (bossMove e δ).x ∧ (bossMove e δ).x ≤ (GAME_GRID_WIDTH : ℚ) - 3) ∧
    ((GAME_GRID_WIDTH : ℚ) - 3 ≤ e.x + BOSS_MOVE_SPEED * (e.direction : ℚ) * δ →
      (bossMove e δ).x = (GAME_GRID_WIDTH : ℚ) - 3 ∧ (bossMove e δ).direction = -1) ∧
    (e.direction = 1 →
      ((bossMove e δ).direction = -1 ↔
        (GAME_GRID_WIDTH : ℚ) - 3 ≤ e.x + BOSS_MOVE_SPEED * (e.direction : ℚ) * δ)) ∧
    (e.direction = -1 →
      ((bossMove e δ).direction = 1 ↔
        e.x + BOSS_MOVE_SPEED * (e.direction : ℚ) * δ ≤ 0)) ∧
    (∀ ds : List ℚ, (∀ d ∈ ds, 0 ≤ d) → ds ≠ [] →
      0 ≤ (ds.foldl bossMove e).x ∧ (ds.foldl bossMove e).x ≤ (GAME_GRID_WIDTH : ℚ) - 3) := by
  have hgw : ((GAME_GRID_WIDTH : ℤ) : ℚ) = 52 := by norm_num [GAME_GRID_WIDTH, NUM_WEEKS]
  refine ⟨bossMove_bounds e δ hw, ?_, ?_, ?_, ?_⟩
  · intro hhi
    simp only [bossMove, hw]
    rw [if_neg (by push_cast at hhi ⊢; linarith [hgw]), if_pos (by push_cast at hhi ⊢; linarith)]
    constructor
    · push_cast; ring
    · rfl
  · intro hdir
    simp only [bossMove, hw]
    constructor
    · intro hres
      by_contra hno
      rcases le_or_lt (e.x + BOSS_MOVE_SPEED * (e.direction : ℚ) * δ) 0 with hle | hgt
      · rw [if_pos hle] at hres
        simp at hres
      · rw [if_neg (not_le.2 hgt)] at hres
        rw [if_neg (by push_cast at hno ⊢; intro hc; exact hno (by linarith))] at hres
        simp only at hres
        rw [hdir] at hres
        exact absurd hres (by norm_num)
    · intro hhi
      rw [if_neg (by push_cast at hhi ⊢; linarith [hgw]), if_pos (by push_cast at hhi ⊢; linarith)]
  · intro hdir
    simp only [bossMove, hw]
    constructor
    · intro hres
      by_contra hno
      rw [if_neg hno] at hres
      rcases le_or_lt ((GAME_GRID_WIDTH : ℚ) - ((3 : ℤ) : ℚ))
          (e.x + BOSS_MOVE_SPEED * (e.direction : ℚ) * δ) with hge | hlt
      · rw [if_pos hge] at hres
        exact absurd hres (by norm_num)
      · rw [if_neg (not_le.2 hlt)] at hres
        simp only at hres
        rw [hdir] at hres
        exact absurd hres (by norm_num)
    · intro hlo
      rw [if_pos hlo]
  · intro ds hpos hne
    rcases List.eq_nil_or_concat ds with rfl | ⟨init, d, rfl⟩
    · exact absurd rfl hne
    · rw [List.concat_eq_append, List.foldl_append, List.foldl_cons, List.foldl_nil]
      have hwid : (init.foldl bossMove e).width_cells = 3 := by
        clear hne hpos
        induction init generalizing e with
        | nil => exact hw
        | cons a l ihl =>
            rw [List.foldl_cons]
            exact ihl (bossMove e a) (by rw [bossMove_width, hw])
      exact bossMove_bounds (init.foldl bossMove e) d hwid

/-- C8 witness: a concrete boss step at the upper boundary. -/
theorem boss_boundary_witness :
    (0 ≤ (bossMove (Enemy.mkBoss 0 49 0 3) 1).x ∧
      (bossMove (Enemy.mkBoss 0 49 0 3) 1).x ≤ (GAME_GRID_WIDTH : ℚ) - 3) ∧
    ((GAME_GRID_WIDTH : ℚ) - 3 ≤ (Enemy.mkBoss 0 49 0 3).x +
        BOSS_MOVE_SPEED * ((Enemy.mkBoss 0 49 0 3).direction : ℚ) * 1 →
      (bossMove (Enemy.mkBoss 0 49 0 3) 1).x = (GAME_GRID_WIDTH : ℚ) - 3 ∧
      (bossMove (Enemy.mkBoss 0 49 0 3) 1).direction = -1) ∧
    ((Enemy.mkBoss 0 49 0 3).direction = 1 →
      ((bossMove (Enemy.mkBoss 0 49 0 3) 1).direction = -1 ↔
        (GAME_GRID_WIDTH : ℚ) - 3 ≤ (Enemy.mkBoss 0 49 0 3).x +
          BOSS_MOVE_SPEED * ((Enemy.mkBoss 0 49 0 3).direction : ℚ) * 1)) ∧
    ((Enemy.mkBoss 0 49 0 3).direction = -1 →
      ((bossMove (Enemy.mkBoss 0 49 0 3) 1).direction = 1 ↔
        (Enemy.mkBoss 0 49 0 3).x +
          BOSS_MOVE_SPEED * ((Enemy.mkBoss 0 49 0 3).direction : ℚ) * 1 ≤ 0)) ∧
    (∀ ds : List ℚ, (∀ d ∈ ds, 0 ≤ d) → ds ≠ [] →
      0 ≤ (ds.foldl bossMove (Enemy.mkBoss 0 49 0 3)).x ∧
      (ds.foldl bossMove (Enemy.mkBoss 0 49 0 3)).x ≤ (GAME_GRID_WIDTH : ℚ) - 3) :=
  boss_boundary (Enemy.mkBoss 0 49 0 3) 1 (by norm_num) rfl

/-! ## Scoring -/

theorem removeEnemyById_updateEnemyById (l : List Enemy) (eid : ℕ) (f : Enemy → Enemy)
    (hf : ∀ e, e.eid = eid → (f e).eid = eid) :
    removeEnemyById (updateEnemyById l eid f) eid = removeEnemyById l eid := by
  induction l with
  | nil => rfl
  | cons e rest ih =>
      by_cases h : e.eid = eid
      · simp [updateEnemyById, removeEnemyById, h, hf e h]
      · simp [updateEnemyById, removeEnemyById, h, ih]

/-- C4: a regular enemy destroyed at health 1 adds exactly 100 to the
score (and drops nothing); the boss destroyed at health 1 adds exactly
1000 and drops exactly one power-up; damage that leaves health positive
never changes the score. -/
theorem take_damage_score (gs : GameState) (e : Enemy) :
    (e.health = 1 → e.isBoss = false →
      (gs.takeDamage e).score = gs.score + 100 ∧
      (gs.takeDamage e).enemies = removeEnemyById gs.enemies e.eid ∧
      (gs.takeDamage e).power_ups = gs.power_ups) ∧
    (e.health = 1 → e.isBoss = true →
      (gs.takeDamage e).score = gs.score + 1000 ∧
      (gs.takeDamage e).enemies = removeEnemyById gs.enemies e.eid ∧
      (gs.takeDamage e).power_ups =
        gs.power_ups ++ [PowerUp.mkRapidFire gs.nextId e.x e.y]) ∧
    (2 ≤ e.health → (gs.takeDamage e).score = gs.score) := by
  refine ⟨?_, ?_, ?_⟩
  · intro h1 hb
    unfold GameState.takeDamage GameState.enemyBaseTakeDamage
    simp only [h1, hb]
    norm_num
    exact removeEnemyById_updateEnemyById gs.enemies e.eid _ (fun _ _ => rfl)
  · intro h1 hb
    unfold GameState.takeDamage GameState.enemyBaseTakeDamage
    simp only [h1, hb]
    norm_num
    exact removeEnemyById_updateEnemyById gs.enemies e.eid _ (fun _ _ => rfl)
  · intro h2
    unfold GameState.takeDamage GameState.enemyBaseTakeDamage
    have hh : ¬ (e.health - 1 ≤ 0) := by omega
    simp only [hh, if_false]
    split <;> rfl

/-- C4 witness: the health-1 regular enemy case at a concrete state. -/
theorem take_damage_score_witness :
    (c5Gs.takeDamage (Enemy.mkRegular 0 0 0 1)).score = c5Gs.score + 100 ∧
    (c5Gs.takeDamage (Enemy.mkRegular 0 0 0 1)).enemies =
      removeEnemyById c5Gs.enemies (Enemy.mkRegular 0 0 0 1).eid ∧
    (c5Gs.takeDamage (Enemy.mkRegular 0 0 0 1)).power_ups = c5Gs.power_ups :=
  (take_damage_score c5Gs (Enemy.mkRegular 0 0 0 1)).1 rfl rfl

/-! ## Seeded construction -/

/-- C1: reproducible seeded runs are impossible in the sources —
`create_seeded_game_state` passes `rng=` to a `GameState.__init__` that
does not accept it, so every seeded pipeline run raises `TypeError`
instead of producing (byte-identical or any) frames, and the starfield
of the `GameState(contribution_data)` constructor draws from the
ambient, unseeded generator. -/
theorem create_seeded_game_state_raises (data : ContributionData) (seed : ℤ)
    (ambient : ℕ → ℚ) :
    create_seeded_game_state data seed ambient =
      .error "TypeError: __init__() got an unexpected keyword argument rng" := rfl

/-! ## Weighted-random strategy -/

theorem lowestFold (l : List Enemy) : ∀ m0 : Enemy,
    ∃ m, l.foldl
        (fun best e =>
          match best with
          | none => some e
          | some b => if b.y < e.y then some e else some b)
        (some m0) = some m ∧
      (m = m0 ∨ m ∈ l) ∧ m0.y ≤ m.y ∧ ∀ e ∈ l, e.y ≤ m.y := by
  induction l with
  | nil => exact fun m0 => ⟨m0, rfl, Or.inl rfl, le_refl _, by simp⟩
  | cons e rest ih =>
      intro m0
      rw [List.foldl_cons]
      by_cases h : m0.y < e.y
      · obtain ⟨m, hm, hmem, hy, hall⟩ := ih e
        refine ⟨m, by simpa [h] using hm, ?_, ?_, ?_⟩
        · rcases hmem with rfl | hmem
          · exact Or.inr (List.mem_cons_self _ _)
          · exact Or.inr (List.mem_cons_of_mem _ hmem)
        · exact le_trans (le_of_lt h) hy
        · intro e' he'
          rcases List.mem_cons.1 he' with rfl | he'
          · exact hy
          · exact hall e' he'
      · obtain ⟨m, hm, hmem, hy, hall⟩ := ih m0
        refine ⟨m, by simpa [h] using hm, ?_, hy, ?_⟩
        · rcases hmem with rfl | hmem
          · exact Or.inl rfl
          · exact Or.inr (List.mem_cons_of_mem _ hmem)
        · intro e' he'
          rcases List.mem_cons.1 he' with rfl | he'
          · exact le_trans (not_lt.1 h) hy
          · exact hall e' he'

/-- C5 counterexample: in a column holding two enemies the round the
policy yields after choosing that column is shorter than emptying the
column requires — only the lowest enemy's health is shot before the
policy re-chooses. -/
theorem random_strategy_round_counterexample :
    (randomStrategyRound c5Gs 0).length < (columnTotalHealth c5Gs 0).toNat := by
  decide

/-- C5 amended: once the weighted-random policy has chosen a target
column, it yields exactly `health` shoot actions for the lowest (max-y)
enemy of that column — destroying at most that single enemy — and only
then re-chooses; it does not keep shooting until the full column is
empty. -/
theorem random_strategy_round_spec (gs : GameState) (col : ℚ)
    (h : ∃ e ∈ gs.enemies, e.x = col) :
    ∃ m, lowestEnemyInColumn gs col = some m ∧ m ∈ gs.enemies ∧ m.x = col ∧
      (∀ e ∈ gs.enemies, e.x = col → e.y ≤ m.y) ∧
      randomStrategyRound gs col =
        List.replicate m.health.toNat { x := col, shoot := true } := by
  obtain ⟨e0, he0, hx0⟩ := h
  have hmemf : e0 ∈ gs.enemies.filter (fun e => e.x = col) :=
    List.mem_filter.2 ⟨he0, by simp [hx0]⟩
  obtain ⟨a, l', hfl⟩ := List.exists_cons_of_ne_nil (List.ne_nil_of_mem hmemf)
  obtain ⟨m, hm, hmem, hya, hall⟩ := lowestFold l' a
  have hfold : lowestEnemyInColumn gs col = some m := by
    unfold lowestEnemyInColumn
    rw [hfl, List.foldl_cons]
    exact hm
  have hmf : m ∈ gs.enemies.filter (fun e => e.x = col) := by
    rw [hfl]
    rcases hmem with rfl | hmem
    · exact List.mem_cons_self _ _
    · exact List.mem_cons_of_mem _ hmem
  have hmx : m.x = col := by simpa using (List.mem_filter.1 hmf).2
  refine ⟨m, hfold, (List.mem_filter.1 hmf).1, hmx, ?_, ?_⟩
  · intro e' he' hex
    have hth : e' ∈ gs.enemies.filter (fun e => e.x = col) :=
      List.mem_filter.2 ⟨he', by simp [hex]⟩
    rw [hfl] at hth
    rcases List.mem_cons.1 hth with heq | hmem'
    · rw [heq]; exact hya
    · exact hall e' hmem'
  · unfold randomStrategyRound
    rw [hfold]
    rfl

/-- C5 witness. -/
theorem random_strategy_round_spec_witness :
    ∃ m, lowestEnemyInColumn c5Gs 0 = some m ∧ m ∈ c5Gs.enemies ∧ m.x = 0 ∧
      (∀ e ∈ c5Gs.enemies, e.x = 0 → e.y ≤ m.y) ∧
      randomStrategyRound c5Gs 0 =
        List.replicate m.health.toNat { x := 0, shoot := true } :=
  random_strategy_round_spec c5Gs 0 ⟨Enemy.mkRegular 0 0 0 1, by decide, by decide⟩

/-! ## Track-compressor lemmas -/

theorem getLast?_cons_ne {β : Type u_1} (a : β) (l : List β) (h : l ≠ []) :
    (a :: l).getLast? = l.getLast? := by
  match l, h with
  | b :: l2, _ => exact List.getLast?_cons_cons

theorem compressLoop_head_pairwise (skip : α → α → Bool) :
    ∀ (rest acc : List (ℤ × α)), acc ≠ [] →
      List.Pairwise (· < ·) ((acc.map (·.1)).reverse ++ rest.map (·.1)) →
      (compressLoop skip rest acc).head? = acc.getLast? ∧
      List.Pairwise (· < ·) ((compressLoop skip rest acc).map (·.1)) := by
  intro rest
  induction rest with
  | nil =>
      intro acc hne hp
      constructor
      · show (acc.reverse).head? = acc.getLast?
        exact List.head?_reverse acc
      · show List.Pairwise (· < ·) ((acc.reverse).map (·.1))
        rw [List.map_reverse]
        simpa using hp
  | cons p rest ih =>
      obtain ⟨t, v⟩ := p
      intro acc hne hp
      match acc, hne with
      | (lt, lv) :: accTail, _ =>
        have hlt : lt < t := by
          have := (List.pairwise_append.1 hp).2.2
          exact this lt (by simp) t (by simp)
        have hdrop : List.Pairwise (· < ·)
            ((((lt, lv) :: accTail).map (·.1)).reverse ++ rest.map (·.1)) := by
          refine List.Pairwise.sublist ?_ hp
          refine List.Sublist.append_left ?_ _
          simp only [List.map_cons]
          exact List.sublist_cons_self _ _
        have hpush : List.Pairwise (· < ·)
            ((((t, v) :: (lt, lv) :: accTail).map (·.1)).reverse ++ rest.map (·.1)) := by
          simp only [List.map_cons, List.reverse_cons] at hp ⊢
          rw [List.append_assoc] at hp ⊢
          simpa using hp
        show (compressLoop skip ((t, v) :: rest) ((lt, lv) :: accTail)).head? = _ ∧ _
        rw [compressLoop]
        rw [if_neg (ne_of_gt hlt)]
        by_cases hs : skip v lv
        · rw [if_pos hs]
          exact ih ((lt, lv) :: accTail) (by simp) hdrop
        · rw [if_neg hs]
          have := ih ((t, v) :: (lt, lv) :: accTail) (by simp) hpush
          refine ⟨?_, this.2⟩
          rw [this.1]
          rfl

theorem compressLoop_last (skip : α → α → Bool) :
    ∀ (rest : List (ℤ × α)) (lt : ℤ) (lv : α) (accTail : List (ℤ × α)),
      List.Pairwise (· < ·) ((((lt, lv) :: accTail).map (·.1)).reverse ++ rest.map (·.1)) →
      ∃ q, (compressLoop skip rest ((lt, lv) :: accTail)).getLast? = some q ∧
        ((rest = [] ∧ q = (lt, lv)) ∨
         (∃ plast, rest.getLast? = some plast ∧
           (q.2 = plast.2 ∨ skip plast.2 q.2 = true))) := by
  intro rest
  induction rest with
  | nil =>
      intro lt lv accTail hp
      refine ⟨(lt, lv), ?_, Or.inl ⟨rfl, rfl⟩⟩
      show (((lt, lv) :: accTail).reverse).getLast? = _
      rw [List.getLast?_reverse]
      rfl
  | cons p rest ih =>
      obtain ⟨t, v⟩ := p
      intro lt lv accTail hp
      have hlt : lt < t := by
        have := (List.pairwise_append.1 hp).2.2
        exact this lt (by simp) t (by simp)
      have hdrop : List.Pairwise (· < ·)
          ((((lt, lv) :: accTail).map (·.1)).reverse ++ rest.map (·.1)) := by
        refine List.Pairwise.sublist ?_ hp
        refine List.Sublist.append_left ?_ _
        simp only [List.map_cons]
        exact List.sublist_cons_self _ _
      have hpush : List.Pairwise (· < ·)
          ((((t, v) :: (lt, lv) :: accTail).map (·.1)).reverse ++ rest.map (·.1)) := by
        simp only [List.map_cons, List.reverse_cons] at hp ⊢
        rw [List.append_assoc] at hp ⊢
        simpa using hp
      show ∃ q, (compressLoop skip ((t, v) :: rest) ((lt, lv) :: accTail)).getLast? =
        some q ∧ _
      rw [compressLoop]
      rw [if_neg (ne_of_gt hlt)]
      by_cases hs : skip v lv
      · rw [if_pos hs]
        obtain ⟨q, hq, hcase⟩ := ih lt lv accTail hdrop
        refine ⟨q, hq, Or.inr ?_⟩
        rcases hcase with ⟨rfl, rfl⟩ | ⟨plast, hpl, hrel⟩
        · exact ⟨(t, v), rfl, Or.inr hs⟩
        · refine ⟨plast, ?_, hrel⟩
          rw [getLast?_cons_ne _ _ (fun hnil => by
            rw [hnil] at hpl; exact absurd hpl (by simp))]
          exact hpl
      · rw [if_neg hs]
        obtain ⟨q, hq, hcase⟩ := ih t v ((lt, lv) :: accTail) hpush
        refine ⟨q, hq, Or.inr ?_⟩
        rcases hcase with ⟨rfl, rfl⟩ | ⟨plast, hpl, hrel⟩
        · exact ⟨(t, v), rfl, Or.inl rfl⟩
        · refine ⟨plast, ?_, hrel⟩
          rw [getLast?_cons_ne _ _ (fun hnil => by
            rw [hnil] at hpl; exact absurd hpl (by simp))]
          exact hpl

theorem sorted_last_max (l : List ℤ) (a : ℤ) (hs : List.Pairwise (· < ·) l)
    (hl : l.getLast? = some a) : ∀ b ∈ l, b ≤ a := by
  induction l with
  | nil => simp at hl
  | cons x rest ih =>
      rcases List.eq_nil_or_concat rest with rfl | hcne
      · simp at hl
        intro b hb
        simp at hb
        rw [hb, hl]
      · have hrne : rest ≠ [] := by
          rcases hcne with ⟨i, d, rfl⟩; simp
        rw [getLast?_cons_ne _ _ hrne] at hl
        intro b hb
        rcases List.mem_cons.1 hb with rfl | hb
        · exact le_of_lt ((List.pairwise_cons.1 hs).1 a (List.mem_of_mem_getLast? hl))
        · exact ih (List.pairwise_cons.1 hs).2 hl b hb

theorem foldl_step_skip [Inhabited α] (tq : ℤ) (l : List (ℤ × α)) (acc : α)
    (h : ∀ p ∈ l, ¬p.1 ≤ tq) :
    l.foldl (fun acc tv => if tv.1 ≤ tq then tv.2 else acc) acc = acc := by
  induction l generalizing acc with
  | nil => rfl
  | cons p rest ih =>
      rw [List.foldl_cons, if_neg (h p (List.mem_cons_self _ _))]
      exact ih acc fun p hp => h p (List.mem_cons_of_mem _ hp)

theorem foldl_step_all [Inhabited α] (tq : ℤ) (l : List (ℤ × α)) (q : ℤ × α)
    (hl : l.getLast? = some q) (h : ∀ p ∈ l, p.1 ≤ tq) :
    ∀ acc, l.foldl (fun acc tv => if tv.1 ≤ tq then tv.2 else acc) acc = q.2 := by
  induction l with
  | nil => simp at hl
  | cons p rest ih =>
      intro acc
      rw [List.foldl_cons, if_pos (h p (List.mem_cons_self _ _))]
      rcases List.eq_nil_or_concat rest with rfl | hcne
      · simp at hl
        rw [hl]
        rfl
      · have hrne : rest ≠ [] := by
          rcases hcne with ⟨i, d, rfl⟩; simp
        rw [getLast?_cons_ne _ _ hrne] at hl
        exact ih hl (fun p hp => h p (List.mem_cons_of_mem _ hp)) p.2

theorem stepValueAt_pairs [Inhabited α] (pairs : List (ℤ × α)) (tq : ℤ) :
    stepValueAt (pairs.map (·.1)) (pairs.map (·.2)) tq =
      pairs.foldl (fun acc tv => if tv.1 ≤ tq then tv.2 else acc)
        ((pairs.map (·.2)).headD default) := by
  unfold stepValueAt
  rw [List.zip_map']
  have hid : (fun a : ℤ × α => (a.1, a.2)) = id := by
    funext a; rfl
  rw [hid, List.map_id]

theorem stepValueAt_first [Inhabited α] (t0 : ℤ) (v0 : α) (rest : List (ℤ × α))
    (hall : ∀ p ∈ rest, ¬p.1 ≤ t0) :
    stepValueAt (((t0, v0) :: rest).map (·.1)) (((t0, v0) :: rest).map (·.2)) t0 = v0 := by
  rw [stepValueAt_pairs, List.foldl_cons, if_pos (le_refl t0)]
  exact foldl_step_skip t0 rest v0 hall

theorem stepValueAt_last [Inhabited α] (pairs : List (ℤ × α)) (q : ℤ × α) (tq : ℤ)
    (hlast : pairs.getLast? = some q) (hall : ∀ p ∈ pairs, p.1 ≤ tq) :
    stepValueAt (pairs.map (·.1)) (pairs.map (·.2)) tq = q.2 := by
  rw [stepValueAt_pairs]
  exact foldl_step_all tq pairs q hlast hall _

theorem compressLoop_times_subset (skip : α → α → Bool) :
    ∀ (rest acc : List (ℤ × α)) (p : ℤ × α), p ∈ compressLoop skip rest acc →
      p.1 ∈ acc.map (·.1) ∨ p.1 ∈ rest.map (·.1) := by
  intro rest
  induction rest with
  | nil =>
      intro acc p hp
      rw [compressLoop] at hp
      exact Or.inl (List.mem_map_of_mem _ (List.mem_reverse.1 hp))
  | cons tv rest ih =>
      obtain ⟨t, v⟩ := tv
      intro acc p hp
      match acc with
      | [] =>
          rw [compressLoop] at hp
          rcases ih [(t, v)] p hp with h | h
          · simp at h
            exact Or.inr (by simp [h])
          · exact Or.inr (by simp [h])
      | (lt, lv) :: accTail =>
          rw [compressLoop] at hp
          split at hp
          · rcases ih ((lt, v) :: accTail) p hp with h | h
            · simp at h
              rcases h with h | h
              · exact Or.inl (by simp [h])
              · exact Or.inl (by simp [h])
            · exact Or.inr (by simp [h])
          · split at hp
            · rcases ih ((lt, lv) :: accTail) p hp with h | h
              · exact Or.inl h
              · exact Or.inr (by simp [h])
            · rcases ih ((t, v) :: (lt, lv) :: accTail) p hp with h | h
              · simp at h
                rcases h with h | h | h
                · exact Or.inr (by simp [h])
                · exact Or.inl (by simp [h])
                · exact Or.inl (by simp [h])
              · exact Or.inr (by simp [h])

theorem zip_getLast (l1 : List ℤ) (l2 : List α) (hlen : l1.length = l2.length)
    (hne : l1 ≠ []) :
    ∃ a b, l1.getLast? = some a ∧ l2.getLast? = some b ∧
      (l1.zip l2).getLast? = some (a, b) := by
  induction l1 generalizing l2 with
  | nil => exact absurd rfl hne
  | cons x rest ih =>
      match l2, hlen with
      | y :: rest2, hlen =>
        rcases List.eq_nil_or_concat rest with rfl | hcne
        · have h2 : rest2 = [] := by
            simpa using hlen.symm
          subst h2
          exact ⟨x, y, rfl, rfl, rfl⟩
        · have hrne : rest ≠ [] := by
            rcases hcne with ⟨i, d, rfl⟩; simp
          have hr2ne : rest2 ≠ [] := by
            intro h
            rw [h] at hlen
            simp at hlen
            exact hrne hlen
          obtain ⟨a, b, ha, hb, hab⟩ := ih rest2 (by simpa using hlen) hrne
          refine ⟨a, b, ?_, ?_, ?_⟩
          · rw [getLast?_cons_ne _ _ hrne]; exact ha
          · rw [getLast?_cons_ne _ _ hr2ne]; exact hb
          · rw [List.zip_cons_cons, getLast?_cons_ne _ _ (fun h => by
              rw [h] at hab
              exact absurd hab (by simp))]
            exact hab

theorem compress_track_general (skip : α → α → Bool) [Inhabited α]
    (t0 : ℤ) (v0 : α) (ts : List ℤ) (vs : List α)
    (hlen : ts.length = vs.length)
    (hsort : List.Pairwise (· < ·) (t0 :: ts)) :
    (compressLoop skip (ts.zip vs) [(t0, v0)]).head? = some (t0, v0) ∧
    List.Pairwise (· < ·) ((compressLoop skip (ts.zip vs) [(t0, v0)]).map (·.1)) ∧
    stepValueAt ((compressLoop skip (ts.zip vs) [(t0, v0)]).map (·.1))
      ((compressLoop skip (ts.zip vs) [(t0, v0)]).map (·.2)) t0 = v0 ∧
    ∃ q tl vl, (compressLoop skip (ts.zip vs) [(t0, v0)]).getLast? = some q ∧
      (t0 :: ts).getLast? = some tl ∧ (v0 :: vs).getLast? = some vl ∧
      stepValueAt ((compressLoop skip (ts.zip vs) [(t0, v0)]).map (·.1))
        ((compressLoop skip (ts.zip vs) [(t0, v0)]).map (·.2)) tl = q.2 ∧
      (q.2 = vl ∨ skip vl q.2 = true) := by
  have hzfst : ((ts.zip vs).map (·.1)) = ts := List.map_fst_zip ts vs (le_of_eq hlen)
  have hpair : List.Pairwise (· < ·)
      (([((t0 : ℤ), v0)].map (·.1)).reverse ++ (ts.zip vs).map (·.1)) := by
    rw [hzfst]
    simpa using hsort
  obtain ⟨hhead, hpw⟩ :=
    compressLoop_head_pairwise skip (ts.zip vs) [(t0, v0)] (by simp) hpair
  obtain ⟨tail, htail⟩ : ∃ tail,
      compressLoop skip (ts.zip vs) [(t0, v0)] = (t0, v0) :: tail := by
    match hcl : compressLoop skip (ts.zip vs) [(t0, v0)], hhead with
    | p :: tail, hh =>
        refine ⟨tail, ?_⟩
        simp only [List.head?_cons, List.getLast?_singleton] at hh
        rw [Option.some_inj] at hh
        rw [hh]
  have hsub : ∀ p ∈ compressLoop skip (ts.zip vs) [(t0, v0)], p.1 ∈ t0 :: ts := by
    intro p hp
    rcases compressLoop_times_subset skip (ts.zip vs) [(t0, v0)] p hp with h | h
    · simp at h
      simp [h]
    · rw [hzfst] at h
      exact List.mem_cons_of_mem _ h
  refine ⟨hhead, hpw, ?_, ?_⟩
  · rw [htail]
    refine stepValueAt_first t0 v0 tail ?_
    intro p hp
    rw [htail, List.map_cons] at hpw
    have := (List.pairwise_cons.1 hpw).1 p.1 (List.mem_map_of_mem _ hp)
    exact not_le.2 this
  · obtain ⟨tl, vl, htl, hvl, _⟩ :=
      zip_getLast (t0 :: ts) (v0 :: vs) (by simpa using hlen) (by simp)
    obtain ⟨q, hq, hcase⟩ := compressLoop_last skip (ts.zip vs) t0 v0 [] hpair
    have hallle : ∀ p ∈ compressLoop skip (ts.zip vs) [(t0, v0)], p.1 ≤ tl := by
      intro p hp
      exact sorted_last_max (t0 :: ts) tl hsort htl p.1 (hsub p hp)
    refine ⟨q, tl, vl, hq, htl, hvl, stepValueAt_last _ q tl hq hallle, ?_⟩
    rcases hcase with ⟨hnil, rfl⟩ | ⟨plast, hpl, hrel⟩
    · have hts : ts = [] := by
        rcases List.zip_eq_nil_iff.1 hnil with h | h
        · exact h
        · rw [h] at hlen
          exact List.length_eq_zero.1 (by simpa using hlen)
      have hvs : vs = [] := by
        rw [hts] at hlen
        exact List.length_eq_zero.1 (by simpa using hlen.symm)
      subst hts; subst hvs
      simp at htl hvl
      rw [← hvl]
      exact Or.inl rfl
    · have htsne : ts ≠ [] := by
        intro h
        rw [h] at hpl
        simp at hpl
      obtain ⟨a, b, ha, hb, hab⟩ := zip_getLast ts vs hlen htsne
      rw [hpl] at hab
      have hvsne : vs ≠ [] := by
        intro h
        rw [h] at hb
        simp at hb
      rw [getLast?_cons_ne _ _ hvsne, hb] at hvl
      rw [Option.some_inj] at hvl hab
      subst hvl
      rw [hab] at hrel
      simpa using hrel

theorem keep_shape (P : ℕ → Bool) (n : ℕ) (h3 : 3 ≤ n) :
    ((0 : ℕ) :: ((List.range' 1 (n - 2)).filter P ++ [n - 1])).getLast? = some (n - 1) ∧
    List.Pairwise (· < ·) ((0 : ℕ) :: ((List.range' 1 (n - 2)).filter P ++ [n - 1])) ∧
    ∀ i ∈ (0 : ℕ) :: ((List.range' 1 (n - 2)).filter P ++ [n - 1]), i < n := by
  have hmem : ∀ i ∈ (List.range' 1 (n - 2)).filter P, 1 ≤ i ∧ i < n - 1 := by
    intro i hi
    have := List.mem_range'_1.1 (List.mem_of_mem_filter hi)
    exact ⟨this.1, by omega⟩
  refine ⟨?_, ?_, ?_⟩
  · show (((0 : ℕ) :: (List.range' 1 (n - 2)).filter P) ++ [n - 1]).getLast? = some (n - 1)
    exact List.getLast?_concat _
  · refine List.pairwise_cons.2 ⟨?_, ?_⟩
    · intro j hj
      rcases List.mem_append.1 hj with h | h
      · exact lt_of_lt_of_le one_pos (hmem j h).1
      · simp at h
        omega
    · refine List.pairwise_append.2 ⟨List.Pairwise.filter P (List.pairwise_lt_range' 1 (n - 2)), ?_, ?_⟩
      · simp
      · intro a ha b hb
        simp at hb
        rw [hb]
        exact (hmem a ha).2
  · intro i hi
    rcases List.mem_cons.1 hi with rfl | hi
    · omega
    · rcases List.mem_append.1 hi with h | h
      · have := (hmem i h).2
        omega
      · simp at h
        omega

theorem getD_eq_getElem_of_lt {β : Type u_1} (l : List β) (n : ℕ) (d : β)
    (h : n < l.length) : l.getD n d = l[n] := by
  rw [List.getD_eq_getElem?_getD, List.getElem?_eq_getElem h]
  rfl

theorem keep_map_pairwise (times : List ℤ) (keep : List ℕ)
    (hkp : List.Pairwise (· < ·) keep) (hbound : ∀ i ∈ keep, i < times.length)
    (hsort : List.Pairwise (· < ·) times) :
    List.Pairwise (· < ·) (keep.map (times.getD · 0)) := by
  refine List.pairwise_map.2 ?_
  refine List.Pairwise.imp_of_mem ?_ hkp
  intro a b ha hb hab
  rw [getD_eq_getElem_of_lt _ _ _ (hbound a ha), getD_eq_getElem_of_lt _ _ _ (hbound b hb)]
  exact List.pairwise_iff_getElem.1 hsort a b (hbound a ha) (hbound b hb) hab

theorem getD_last {β : Type u_1} (l : List β) (tl d : β) (h : l.getLast? = some tl) :
    l.getD (l.length - 1) d = tl := by
  rw [List.getD_eq_getElem?_getD, ← List.getLast?_eq_getElem? l, h]
  rfl

/-- C6 counterexample: the scalar compressor drops a final sample that
is within `eps` of the last kept value, so the decompressed value at the
track's last original timestamp differs from the original sample — the
preservation is not exact. -/
theorem scalar_last_sample_not_exact :
    stepValueAt
        (tlCompressScalarTrack [0, 1, 2] [0, 1, 1 + 1/10000000000] (1/1000000000)).1
        (tlCompressScalarTrack [0, 1, 2] [0, 1, 1 + 1/10000000000] (1/1000000000)).2 2 ≠
      1 + 1/10000000000 := by
  have hr : tlCompressScalarTrack [0, 1, 2] [0, 1, 1 + 1/10000000000] (1/1000000000) =
      ([0, 1], [0, 1]) := by
    norm_num [tlCompressScalarTrack, compressLoop, pyAbs]
    exact ⟨by simp, by simp⟩
  rw [hr]
  norm_num [stepValueAt]

/-- C6 amended: under strictly increasing input times, every compressor
preserves the first original sample exactly and keeps output times
strictly increasing; the discrete, linear-scalar and point compressors
also preserve the last original sample exactly, while the scalar
compressor preserves the last sample only up to `eps` (the
near-equality used to collapse duplicates). -/
theorem track_compression_first_last {α : Type} [DecidableEq α] [Inhabited α]
    (times : List ℤ) (values : List ℚ) (dvals : List α) (pts : List (ℚ × ℚ))
    (forced : List ℕ) (eps : ℚ) (dflt : α)
    (hsort : List.Pairwise (· < ·) times) (hne : times ≠ []) :
    (0 ≤ eps → times.length = values.length →
      (tlCompressScalarTrack times values eps).1.head? = times.head? ∧
      (tlCompressScalarTrack times values eps).2.head? = values.head? ∧
      List.Pairwise (· < ·) (tlCompressScalarTrack times values eps).1 ∧
      stepValueAt (tlCompressScalarTrack times values eps).1
        (tlCompressScalarTrack times values eps).2 (times.headD 0) = values.headD 0 ∧
      (∃ tl vl, times.getLast? = some tl ∧ values.getLast? = some vl ∧
        |stepValueAt (tlCompressScalarTrack times values eps).1
          (tlCompressScalarTrack times values eps).2 tl - vl| ≤ eps)) ∧
    (times.length = dvals.length →
      (tlCompressDiscreteTrack times dvals dflt).1.head? = times.head? ∧
      (tlCompressDiscreteTrack times dvals dflt).2.head? = dvals.head? ∧
      List.Pairwise (· < ·) (tlCompressDiscreteTrack times dvals dflt).1 ∧
      stepValueAt (tlCompressDiscreteTrack times dvals dflt).1
        (tlCompressDiscreteTrack times dvals dflt).2 (times.headD 0) = dvals.headD dflt ∧
      (∃ tl vl, times.getLast? = some tl ∧ dvals.getLast? = some vl ∧
        stepValueAt (tlCompressDiscreteTrack times dvals dflt).1
          (tlCompressDiscreteTrack times dvals dflt).2 tl = vl)) ∧
    (times.length = values.length →
      (tlCompressLinearScalarTrack times values forced eps).1.head? = times.head? ∧
      (tlCompressLinearScalarTrack times values forced eps).2.head? = values.head? ∧
      (tlCompressLinearScalarTrack times values forced eps).1.getLast? = times.getLast? ∧
      (tlCompressLinearScalarTrack times values forced eps).2.getLast? = values.getLast? ∧
      List.Pairwise (· < ·) (tlCompressLinearScalarTrack times values forced eps).1) ∧
    (times.length = pts.length →
      (tlCompressPointsWithForced pts times forced eps).1.head? = pts.head? ∧
      (tlCompressPointsWithForced pts times forced eps).2.head? = times.head? ∧
      (tlCompressPointsWithForced pts times forced eps).1.getLast? = pts.getLast? ∧
      (tlCompressPointsWithForced pts times forced eps).2.getLast? = times.getLast? ∧
      List.Pairwise (· < ·) (tlCompressPointsWithForced pts times forced eps).2) := by
  match times, hne with
  | t0 :: ts, _ =>
  refine ⟨?_, ?_, ?_, ?_⟩
  · intro heps hlen
    rcases values with _ | ⟨v0, vs⟩
    · simp at hlen
    have hlen2 : ts.length = vs.length := by simpa using hlen
    have hguard : ¬(t0 :: ts = [] ∨ (v0 :: vs : List ℚ) = [] ∨
        (t0 :: ts).length ≠ (v0 :: vs).length) := by
      simp [hlen2]
    have hr : tlCompressScalarTrack (t0 :: ts) (v0 :: vs) eps =
        ((compressLoop (fun v lv => decide (pyAbs (v - lv) ≤ eps)) (ts.zip vs) [(t0, v0)]).map (·.1),
         (compressLoop (fun v lv => decide (pyAbs (v - lv) ≤ eps)) (ts.zip vs) [(t0, v0)]).map (·.2)) := by
      simp only [tlCompressScalarTrack]
      rw [if_neg hguard]
    obtain ⟨hh, hpw, hfirst, q, tl, vl, hq, htl, hvl, hstep, hrel⟩ :=
      compress_track_general (fun v lv => decide (pyAbs (v - lv) ≤ eps)) t0 v0 ts vs hlen2 hsort
    rw [hr]
    refine ⟨?_, ?_, hpw, ?_, tl, vl, htl, hvl, ?_⟩
    · rw [List.head?_map, hh]
      rfl
    · rw [List.head?_map, hh]
      rfl
    · simpa using hfirst
    · rw [hstep]
      rcases hrel with h | h
      · rw [h]
        simpa using heps
      · have habs := of_decide_eq_true h
        rw [pyAbs_eq_abs, abs_sub_comm] at habs
        exact habs
  · intro hlen
    rcases dvals with _ | ⟨d0, ds⟩
    · simp at hlen
    have hlen2 : ts.length = ds.length := by simpa using hlen
    have hguard : ¬(t0 :: ts = [] ∨ (d0 :: ds : List α) = [] ∨
        (t0 :: ts).length ≠ (d0 :: ds).length) := by
      simp [hlen2]
    have hr : tlCompressDiscreteTrack (t0 :: ts) (d0 :: ds) dflt =
        ((compressLoop (fun v lv => decide (v = lv)) (ts.zip ds) [(t0, d0)]).map (·.1),
         (compressLoop (fun v lv => decide (v = lv)) (ts.zip ds) [(t0, d0)]).map (·.2)) := by
      simp only [tlCompressDiscreteTrack]
      rw [if_neg hguard]
    obtain ⟨hh, hpw, hfirst, q, tl, vl, hq, htl, hvl, hstep, hrel⟩ :=
      compress_track_general (fun v lv => decide (v = lv)) t0 d0 ts ds hlen2 hsort
    rw [hr]
    refine ⟨?_, ?_, hpw, ?_, tl, vl, htl, hvl, ?_⟩
    · rw [List.head?_map, hh]
      rfl
    · rw [List.head?_map, hh]
      rfl
    · simpa using hfirst
    · rw [hstep]
      rcases hrel with h | h
      · exact h
      · exact (of_decide_eq_true h).symm
  · intro hlen
    have hvne : values ≠ [] := by
      intro h
      rw [h] at hlen
      simp at hlen
    have hguard : ¬(t0 :: ts = [] ∨ values = [] ∨
        (t0 :: ts).length ≠ values.length) := by
      simp [hlen, hvne]
    by_cases hsmall : (t0 :: ts).length ≤ 2
    · have hr : tlCompressLinearScalarTrack (t0 :: ts) values forced eps =
          (t0 :: ts, values) := by
        simp only [tlCompressLinearScalarTrack]
        rw [if_neg hguard, if_pos hsmall]
      rw [hr]
      exact ⟨rfl, rfl, rfl, rfl, hsort⟩
    · have hr : tlCompressLinearScalarTrack (t0 :: ts) values forced eps =
          ((linearKeepIdx (t0 :: ts) values forced eps).map ((t0 :: ts).getD · 0),
           (linearKeepIdx (t0 :: ts) values forced eps).map (values.getD · 0)) := by
        simp only [tlCompressLinearScalarTrack]
        rw [if_neg hguard, if_neg hsmall]
      obtain ⟨P, hP⟩ : ∃ P, linearKeepIdx (t0 :: ts) values forced eps =
          (0 : ℕ) :: ((List.range' 1 (values.length - 2)).filter P ++
            [values.length - 1]) := ⟨_, rfl⟩
      have h3 : 3 ≤ values.length := by
        rw [← hlen]
        simp only [List.length_cons] at hsmall ⊢
        omega
      obtain ⟨hklast, hkpw, hkbound⟩ := keep_shape P values.length h3
      rw [← hP] at hklast hkpw hkbound
      have hkbt : ∀ i ∈ linearKeepIdx (t0 :: ts) values forced eps,
          i < (t0 :: ts).length := by
        intro i hi
        rw [hlen]
        exact hkbound i hi
      obtain ⟨tl, htl⟩ : ∃ tl, (t0 :: ts).getLast? = some tl :=
        Option.isSome_iff_exists.1 (List.getLast?_isSome.2 (by simp))
      obtain ⟨vl, hvl⟩ : ∃ vl, values.getLast? = some vl :=
        Option.isSome_iff_exists.1 (List.getLast?_isSome.2 hvne)
      rw [hr]
      refine ⟨?_, ?_, ?_, ?_, ?_⟩
      · rw [hP]
        rfl
      · rw [hP]
        rcases values with _ | ⟨w0, ws⟩
        · exact absurd rfl hvne
        · rfl
      · rw [List.getLast?_map, hklast]
        simp only [Option.map_some']
        rw [← hlen, getD_last (t0 :: ts) tl 0 htl, htl]
      · rw [List.getLast?_map, hklast]
        simp only [Option.map_some']
        rw [getD_last values vl 0 hvl, hvl]
      · exact keep_map_pairwise (t0 :: ts) _ hkpw hkbt hsort
  · intro hlen
    have hpne : 0 < pts.length := by
      rw [← hlen]
      simp
    by_cases hsmall : pts.length ≤ 2
    · have hr : tlCompressPointsWithForced pts (t0 :: ts) forced eps = (pts, t0 :: ts) := by
        simp only [tlCompressPointsWithForced]
        rw [if_pos hsmall]
      rw [hr]
      exact ⟨rfl, rfl, rfl, rfl, hsort⟩
    · have hr : tlCompressPointsWithForced pts (t0 :: ts) forced eps =
          ((pointsKeepIdx pts (t0 :: ts) forced eps).map (pts.getD · (0, 0)),
           (pointsKeepIdx pts (t0 :: ts) forced eps).map ((t0 :: ts).getD · 0)) := by
        simp only [tlCompressPointsWithForced]
        rw [if_neg hsmall]
      obtain ⟨P, hP⟩ : ∃ P, pointsKeepIdx pts (t0 :: ts) forced eps =
          (0 : ℕ) :: ((List.range' 1 (pts.length - 2)).filter P ++
            [pts.length - 1]) := ⟨_, rfl⟩
      have h3 : 3 ≤ pts.length := by omega
      obtain ⟨hklast, hkpw, hkbound⟩ := keep_shape P pts.length h3
      rw [← hP] at hklast hkpw hkbound
      have hkbt : ∀ i ∈ pointsKeepIdx pts (t0 :: ts) forced eps,
          i < (t0 :: ts).length := by
        intro i hi
        rw [hlen]
        exact hkbound i hi
      obtain ⟨tl, htl⟩ : ∃ tl, (t0 :: ts).getLast? = some tl :=
        Option.isSome_iff_exists.1 (List.getLast?_isSome.2 (by simp))
      have hptsne : pts ≠ [] := by
        intro h
        rw [h] at hpne
        simp at hpne
      obtain ⟨pl, hpl⟩ : ∃ pl, pts.getLast? = some pl :=
        Option.isSome_iff_exists.1 (List.getLast?_isSome.2 hptsne)
      rw [hr]
      refine ⟨?_, ?_, ?_, ?_, ?_⟩
      · rw [hP]
        rcases pts with _ | ⟨p0, prest⟩
        · exact absurd rfl hptsne
        · rfl
      · rw [hP]
        rfl
      · rw [List.getLast?_map, hklast]
        simp only [Option.map_some']
        rw [getD_last pts pl (0, 0) hpl, hpl]
      · rw [List.getLast?_map, hklast]
        simp only [Option.map_some']
        rw [← hlen, getD_last (t0 :: ts) tl 0 htl, htl]
      · exact keep_map_pairwise (t0 :: ts) _ hkpw hkbt hsort

/-- C6 witness: the amended statement at a concrete two-sample track. -/
theorem track_compression_first_last_witness :
    ((0 : ℚ) ≤ 0 → ([0, 1] : List ℤ).length = ([0, 1] : List ℚ).length →
      (tlCompressScalarTrack [0, 1] [0, 1] 0).1.head? = ([0, 1] : List ℤ).head? ∧
      (tlCompressScalarTrack [0, 1] [0, 1] 0).2.head? = ([0, 1] : List ℚ).head? ∧
      List.Pairwise (· < ·) (tlCompressScalarTrack [0, 1] [0, 1] 0).1 ∧
      stepValueAt (tlCompressScalarTrack [0, 1] [0, 1] 0).1
        (tlCompressScalarTrack [0, 1] [0, 1] 0).2 (([0, 1] : List ℤ).headD 0) =
        ([0, 1] : List ℚ).headD 0 ∧
      (∃ tl vl, ([0, 1] : List ℤ).getLast? = some tl ∧
        ([0, 1] : List ℚ).getLast? = some vl ∧
        |stepValueAt (tlCompressScalarTrack [0, 1] [0, 1] 0).1
          (tlCompressScalarTrack [0, 1] [0, 1] 0).2 tl - vl| ≤ 0)) ∧
    (([0, 1] : List ℤ).length = ([false, true] : List Bool).length →
      (tlCompressDiscreteTrack [0, 1] [false, true] false).1.head? =
        ([0, 1] : List ℤ).head? ∧
      (tlCompressDiscreteTrack [0, 1] [false, true] false).2.head? =
        ([false, true] : List Bool).head? ∧
      List.Pairwise (· < ·) (tlCompressDiscreteTrack [0, 1] [false, true] false).1 ∧
      stepValueAt (tlCompressDiscreteTrack [0, 1] [false, true] false).1
        (tlCompressDiscreteTrack [0, 1] [false, true] false).2
        (([0, 1] : List ℤ).headD 0) = ([false, true] : List Bool).headD false ∧
      (∃ tl vl, ([0, 1] : List ℤ).getLast? = some tl ∧
        ([false, true] : List Bool).getLast? = some vl ∧
        stepValueAt (tlCompressDiscreteTrack [0, 1] [false, true] false).1
          (tlCompressDiscreteTrack [0, 1] [false, true] false).2 tl = vl)) ∧
    (([0, 1] : List ℤ).length = ([0, 1] : List ℚ).length →
      (tlCompressLinearScalarTrack [0, 1] [0, 1] [] 0).1.head? =
        ([0, 1] : List ℤ).head? ∧
      (tlCompressLinearScalarTrack [0, 1] [0, 1] [] 0).2.head? =
        ([0, 1] : List ℚ).head? ∧
      (tlCompressLinearScalarTrack [0, 1] [0, 1] [] 0).1.getLast? =
        ([0, 1] : List ℤ).getLast? ∧
      (tlCompressLinearScalarTrack [0, 1] [0, 1] [] 0).2.getLast? =
        ([0, 1] : List ℚ).getLast? ∧
      List.Pairwise (· < ·) (tlCompressLinearScalarTrack [0, 1] [0, 1] [] 0).1) ∧
    (([0, 1] : List ℤ).length = ([(0, 0), (1, 1)] : List (ℚ × ℚ)).length →
      (tlCompressPointsWithForced [(0, 0), (1, 1)] [0, 1] [] 0).1.head? =
        ([(0, 0), (1, 1)] : List (ℚ × ℚ)).head? ∧
      (tlCompressPointsWithForced [(0, 0), (1, 1)] [0, 1] [] 0).2.head? =
        ([0, 1] : List ℤ).head? ∧
      (tlCompressPointsWithForced [(0, 0), (1, 1)] [0, 1] [] 0).1.getLast? =
        ([(0, 0), (1, 1)] : List (ℚ × ℚ)).getLast? ∧
      (tlCompressPointsWithForced [(0, 0), (1, 1)] [0, 1] [] 0).2.getLast? =
        ([0, 1] : List ℤ).getLast? ∧
      List.Pairwise (· < ·) (tlCompressPointsWithForced [(0, 0), (1, 1)] [0, 1] [] 0).2) :=
  track_compression_first_last [0, 1] [0, 1] [false, true] [(0, 0), (1, 1)] [] 0 false
    (by decide) (by decide)

/-! ## Slot-multiplexer lemmas -/

theorem stableInsert_perm (le : α → α → Bool) (a : α) :
    ∀ l : List α, List.Perm (stableInsert le a l) (a :: l) := by
  intro l
  induction l with
  | nil => rfl
  | cons b l ih =>
      rw [stableInsert]
      split
      · exact List.Perm.trans (List.Perm.cons b ih) (List.Perm.swap a b l)
      · rfl

theorem stableSort_perm (le : α → α → Bool) :
    ∀ l : List α, List.Perm (stableSort le l) l := by
  intro l
  induction l with
  | nil => rfl
  | cons a l ih =>
      rw [stableSort]
      exact List.Perm.trans (stableInsert_perm le a (stableSort le l))
        (List.Perm.cons a ih)

theorem slotFreeEnded_inv (st : SlotState β) (current : List String)
    (hinv : SlotInv st) : SlotInv (slotFreeEnded st current) := by
  obtain ⟨hact, hfree, hdisj, hfb, hab⟩ := hinv
  have hsubact : (st.active.filter (fun a => current.contains a.1)).Sublist st.active :=
    List.filter_sublist _
  have hsubend : (st.active.filter (fun a => !current.contains a.1)).Sublist st.active :=
    List.filter_sublist _
  have hperm : List.Perm
      (stableSort (fun a b => a ≤ b)
        (st.free ++ (st.active.filter (fun a => !current.contains a.1)).map (·.2)))
      (st.free ++ (st.active.filter (fun a => !current.contains a.1)).map (·.2)) :=
    stableSort_perm _ _
  refine ⟨?_, ?_, ?_, ?_, ?_⟩
  · exact List.Nodup.sublist (List.Sublist.map _ hsubact) hact
  · refine hperm.nodup_iff.2 ?_
    refine List.Nodup.append hfree (List.Nodup.sublist (List.Sublist.map _ hsubend) hact) ?_
    intro s hs hs2
    exact hdisj s hs (List.Sublist.mem hs2 (List.Sublist.map _ hsubend))
  · intro s hs hs2
    have hs' := hperm.mem_iff.1 hs
    have hmem : s ∈ st.active.map (·.2) :=
      List.Sublist.mem hs2 (List.Sublist.map _ hsubact)
    rcases List.mem_append.1 hs' with h | h
    · exact hdisj s h hmem
    · obtain ⟨p, hp, hps⟩ := List.mem_map.1 h
      obtain ⟨q, hq, hqs⟩ := List.mem_map.1 hs2
      have hpa : p ∈ st.active := List.Sublist.mem hp hsubend
      have hqa : q ∈ st.active := List.Sublist.mem hq hsubact
      have : p = q :=
        List.inj_on_of_nodup_map hact hpa hqa (by rw [hps, hqs])
      have hpcur := (List.mem_filter.1 hp).2
      have hqcur := (List.mem_filter.1 hq).2
      rw [this] at hpcur
      simp at hpcur hqcur
      exact absurd hqcur hpcur
  · intro s hs
    have hs' := hperm.mem_iff.1 hs
    rcases List.mem_append.1 hs' with h | h
    · exact hfb s h
    · obtain ⟨p, hp, hps⟩ := List.mem_map.1 h
      exact hps ▸ hab p.2 (List.mem_map_of_mem _ (List.Sublist.mem hp hsubend))
  · intro s hs
    exact hab s (List.Sublist.mem hs (List.Sublist.map _ hsubact))

theorem slotAssignNew_step_inv (st : SlotState β) (frame_index : ℕ) (oid : String)
    (hinv : SlotInv st) :
    SlotInv ((fun st (oid : String) =>
      if (st.active.lookup oid).isSome then st
      else
        match st.free with
        | s :: rest => { st with active := st.active ++ [(oid, s)], free := rest }
        | [] =>
            { st with
              active := st.active ++ [(oid, st.slot_tracks.length)],
              slot_tracks := st.slot_tracks ++ [List.replicate frame_index none] })
      st oid) := by
  obtain ⟨hact, hfree, hdisj, hfb, hab⟩ := hinv
  by_cases h : (st.active.lookup oid).isSome
  · simpa [h] using ⟨hact, hfree, hdisj, hfb, hab⟩
  · simp only [h, Bool.false_eq_true, if_false]
    match hf : st.free with
    | s :: rest =>
        dsimp only
        refine ⟨?_, ?_, ?_, ?_, ?_⟩
        · simp only [List.map_append, List.map_cons, List.map_nil]
          rw [List.nodup_append]
          refine ⟨hact, by simp, ?_⟩
          intro a ha hb
          simp at hb
          rw [hb] at ha
          exact hdisj s (by rw [hf]; exact List.mem_cons_self _ _) ha
        · exact (List.nodup_cons.1 (hf ▸ hfree)).2
        · intro t ht
          simp only [List.map_append, List.map_cons, List.map_nil, List.mem_append]
          intro hcontra
          rcases hcontra with h1 | h1
          · exact hdisj t (by rw [hf]; exact List.mem_cons_of_mem _ ht) h1
          · simp at h1
            rw [h1] at ht
            exact (List.nodup_cons.1 (hf ▸ hfree)).1 ht
        · intro t ht
          exact hfb t (by rw [hf]; exact List.mem_cons_of_mem _ ht)
        · intro t ht
          simp only [List.map_append, List.map_cons, List.map_nil, List.mem_append] at ht
          rcases ht with h1 | h1
          · exact hab t h1
          · simp at h1
            rw [h1]
            exact hfb s (by rw [hf]; exact List.mem_cons_self _ _)
    | [] =>
        dsimp only
        refine ⟨?_, ?_, ?_, ?_, ?_⟩
        · simp only [List.map_append, List.map_cons, List.map_nil]
          rw [List.nodup_append]
          refine ⟨hact, by simp, ?_⟩
          intro a ha hb
          simp at hb
          rw [hb] at ha
          exact absurd (hab _ ha) (lt_irrefl _)
        · exact hf ▸ hfree
        · intro t ht
          simp at ht
        · intro t ht
          simp at ht
        · intro t ht
          simp only [List.map_append, List.map_cons, List.map_nil, List.mem_append] at ht
          simp only [List.length_append, List.length_cons, List.length_nil]
          rcases ht with h1 | h1
          · exact lt_of_lt_of_le (hab t h1) (by simp)
          · simp at h1
            rw [h1]
            simp

theorem slotAssignNew_inv (st : SlotState β) (frame_index : ℕ) (current : List String)
    (hinv : SlotInv st) : SlotInv (slotAssignNew st frame_index current) := by
  unfold slotAssignNew
  generalize stableSort (fun a b => decide (a < b)) current = l
  induction l generalizing st with
  | nil => exact hinv
  | cons oid l ih =>
      rw [List.foldl_cons]
      exact ih _ (slotAssignNew_step_inv st frame_index oid hinv)

theorem payload_write_inv (st : SlotState β) (frame_map : List (String × β))
    (hinv : SlotInv st) :
    SlotInv (frame_map.foldl
      (fun st idp =>
        match st.active.lookup idp.1 with
        | some s =>
            { st with
              slot_tracks :=
                st.slot_tracks.set s
                  ((st.slot_tracks.getD s []).dropLast ++ [some idp.2]) }
        | none => st)
      st) := by
  induction frame_map generalizing st with
  | nil => exact hinv
  | cons idp rest ih =>
      rw [List.foldl_cons]
      refine ih _ ?_
      obtain ⟨hact, hfree, hdisj, hfb, hab⟩ := hinv
      match st.active.lookup idp.1 with
      | some s =>
          exact ⟨hact, hfree, hdisj,
            fun t ht => by simpa using hfb t ht,
            fun t ht => by simpa using hab t ht⟩
      | none => exact ⟨hact, hfree, hdisj, hfb, hab⟩

theorem append_none_inv (st : SlotState β)
    (hinv : SlotInv st) :
    SlotInv { st with slot_tracks := st.slot_tracks.map (· ++ [none]) } := by
  obtain ⟨hact, hfree, hdisj, hfb, hab⟩ := hinv
  exact ⟨hact, hfree, hdisj,
    fun t ht => by simpa using hfb t ht,
    fun t ht => by simpa using hab t ht⟩

theorem slotFrameStep_inv (reuse : Bool) (st : SlotState β) (fi : ℕ)
    (frame_map : List (String × β)) (hinv : SlotInv st) :
    SlotInv (slotFrameStep reuse (st, fi) frame_map).1 := by
  unfold slotFrameStep
  dsimp only
  cases reuse with
  | true =>
      simp only [if_pos rfl]
      exact payload_write_inv _ frame_map
        (append_none_inv _ (slotAssignNew_inv _ fi _ (slotFreeEnded_inv st _ hinv)))
  | false =>
      have hcond : ¬((false : Bool) = true) := by simp
      simp only [if_neg hcond]
      exact slotFreeEnded_inv _ _
        (payload_write_inv _ frame_map (append_none_inv _ (slotAssignNew_inv _ fi _ hinv)))

/-- C7: in the slot assignment produced by `_tl_build_object_slot_tracks`
no frame has two distinct object identities occupying the same slot: at
every frame the map from present ids to slots is injective on slots, so
the frame ranges of two distinct ids sharing one slot cannot overlap. -/
theorem slot_occupancy_disjoint (frame_maps : List (List (String × β))) (reuse : Bool) :
    ∀ occ ∈ slotOccupancyTrace frame_maps reuse,
      ∀ p ∈ occ, ∀ q ∈ occ, p.2 = q.2 → p.1 = q.1 := by
  have aux : ∀ (fms : List (List (String × β))) (st : SlotState β) (fi : ℕ)
      (trace : List (List (String × ℕ))), SlotInv st →
      (∀ occ ∈ trace, ∀ p ∈ occ, ∀ q ∈ occ, p.2 = q.2 → p.1 = q.1) →
      ∀ occ ∈ (fms.foldl
        (fun (acc : SlotState β × ℕ × List (List (String × ℕ))) frame_map =>
          let (st, frame_index, trace) := acc
          let (st2, fi2) := slotFrameStep reuse (st, frame_index) frame_map
          let current := frame_map.map (·.1)
          (st2, fi2, trace ++ [st2.active.filter (fun a => current.contains a.1)]))
        (st, fi, trace)).2.2,
        ∀ p ∈ occ, ∀ q ∈ occ, p.2 = q.2 → p.1 = q.1 := by
    intro fms
    induction fms with
    | nil => exact fun st fi trace _ htr => htr
    | cons fm rest ih =>
        intro st fi trace hinv htr
        rw [List.foldl_cons]
        have hinv2 := slotFrameStep_inv reuse st fi fm hinv
        refine ih _ _ _ hinv2 ?_
        intro occ hocc
        rcases List.mem_append.1 hocc with h | h
        · exact htr occ h
        · simp only [List.mem_singleton] at h
          subst h
          intro p hp q hq hpq
          have hsub : ((slotFrameStep reuse (st, fi) fm).1.active.filter
              (fun a => (fm.map (·.1)).contains a.1)).Sublist
              (slotFrameStep reuse (st, fi) fm).1.active :=
            List.filter_sublist _
          have hnod : (((slotFrameStep reuse (st, fi) fm).1.active.filter
              (fun a => (fm.map (·.1)).contains a.1)).map (·.2)).Nodup :=
            List.Nodup.sublist (List.Sublist.map _ hsub) hinv2.1
          have := List.inj_on_of_nodup_map hnod hp hq (by rw [hpq])
          rw [this]
  intro occ hocc
  have hinv0 : SlotInv (SlotState.initial β) := by
    refine ⟨?_, ?_, ?_, ?_, ?_⟩ <;> simp [SlotState.initial]
  exact aux frame_maps (SlotState.initial β) 0 [] hinv0 (by simp)
    occ (by simpa [slotOccupancyTrace] using hocc)

/-- C7 witness: a two-frame run where the slot freed by `a` is taken by
`b`; the occupancy of the second frame is injective at the concrete
pair. -/
theorem slot_occupancy_disjoint_witness :
    (("b", (0 : ℕ)) ∈
        (slotOccupancyTrace [[(("a" : String), (5 : ℕ))], [("b", 7)]] true).getD 1 []) ∧
      "b" = "b" :=
  ⟨by decide,
    slot_occupancy_disjoint [[("a", 5)], [("b", 7)]] true
      ((slotOccupancyTrace [[(("a" : String), (5 : ℕ))], [("b", 7)]] true).getD 1 [])
      (by decide) ("b", 0) (by decide) ("b", 0) (by decide) rfl⟩

/-! ## Bullet-pass iteration lemmas -/

theorem updateBulletById_map_bid (l : List Bullet) (bid : ℕ) (b2 : Bullet)
    (hb2 : b2.bid = bid) :
    (updateBulletById l bid (fun _ => b2)).map (·.bid) = l.map (·.bid) := by
  induction l with
  | nil => rfl
  | cons x rest ih =>
      by_cases h : x.bid = bid
      · simp [updateBulletById, h, hb2]
      · simp [updateBulletById, h, ih]

theorem removeBulletById_map_erase (l : List Bullet) (x : ℕ) :
    (removeBulletById l x).map (·.bid) = (l.map (·.bid)).erase x := by
  induction l with
  | nil => rfl
  | cons b rest ih =>
      by_cases h : b.bid = x
      · rw [removeBulletById, if_pos h, List.map_cons, h, List.erase_cons_head]
      · rw [removeBulletById, if_neg h, List.map_cons, List.map_cons,
          List.erase_cons_tail, ih]
        simp [h]

theorem removeBulletById_absent (l : List Bullet) (x : ℕ)
    (h : x ∉ l.map (·.bid)) : removeBulletById l x = l := by
  induction l with
  | nil => rfl
  | cons b rest ih =>
      simp only [List.map_cons, List.mem_cons] at h
      push_neg at h
      rw [removeBulletById, if_neg (fun hc => h.1 hc.symm), ih h.2]

theorem takeDamage_bullets (gs : GameState) (e : Enemy) :
    (gs.takeDamage e).bullets = gs.bullets := by
  simp only [GameState.takeDamage, GameState.enemyBaseTakeDamage]
  split_ifs <;> rfl

theorem create_explosion_bullets (gs : GameState) (x y : ℚ) (sz : ExplosionSize) :
    (gs.create_explosion x y sz).bullets = gs.bullets := rfl

theorem shipTakeDamage_bullets (gs : GameState) :
    gs.shipTakeDamage.bullets = gs.bullets := by
  unfold GameState.shipTakeDamage
  split
  · rfl
  · dsimp only
    split
    · rw [create_explosion_bullets]
    · rfl

/-- What one `Bullet.animate` does to the bullet collection: only the
animated bullet's entry is rewritten in place, and possibly removed. -/
theorem bulletAnimate_bullets (gs : GameState) (b : Bullet) (δ : ℚ)
    (hnd : (gs.bullets.map (·.bid)).Nodup) :
    ∃ b2 : Bullet, b2.bid = b.bid ∧
      ((gs.bulletAnimate b δ).bullets =
        updateBulletById gs.bullets b.bid (fun _ => b2) ∨
       (gs.bulletAnimate b δ).bullets =
        removeBulletById (updateBulletById gs.bullets b.bid (fun _ => b2)) b.bid) := by
  unfold GameState.bulletAnimate
  cases hk : b.kind with
  | ship =>
      refine ⟨{ b with y := b.y - BULLET_SPEED * δ }, rfl, ?_⟩
      unfold GameState.shipBulletAnimate
      dsimp only
      cases hhit : bulletHit gs.enemies { b with y := b.y - BULLET_SPEED * δ } with
      | some e =>
          simp only [hhit]
          right
          unfold GameState.remove_bullet
          rw [takeDamage_bullets, create_explosion_bullets]
      | none =>
          simp only [hhit]
          split
          · right
            unfold GameState.remove_bullet
            rfl
          · left
            rfl
  | boss =>
      refine ⟨{ b with y := b.y + b.speed * δ }, rfl, ?_⟩
      have hmap : (updateBulletById gs.bullets b.bid
          (fun _ => { b with y := b.y + b.speed * δ })).map (·.bid) =
          gs.bullets.map (·.bid) :=
        updateBulletById_map_bid _ _ _ rfl
      have habs : b.bid ∉ (removeBulletById (updateBulletById gs.bullets b.bid
          (fun _ => { b with y := b.y + b.speed * δ })) b.bid).map (·.bid) := by
        rw [removeBulletById_map_erase, hmap]
        exact hnd.not_mem_erase
      simp only [GameState.bossBulletAnimate]
      split_ifs
      · right
        simp only [shipTakeDamage_bullets, create_explosion_bullets]
        exact removeBulletById_absent _ _ habs
      · right
        rfl
      · right
        simp only [shipTakeDamage_bullets, create_explosion_bullets]
      · left
        rfl

theorem nodup_getElem_not_mem_drop (ids : List ℕ) (i : ℕ) (x : ℕ)
    (hnd : ids.Nodup) (h : ids[i]? = some x) : x ∉ ids.drop (i + 1) := by
  have hix : i < ids.length := by
    by_contra hc
    rw [List.getElem?_eq_none (le_of_not_lt hc)] at h
    exact absurd h (by simp)
  have hxi : ids[i] = x := by
    rw [List.getElem?_eq_getElem hix] at h
    exact Option.some_inj.1 h
  have hsplit : ids = ids.take (i + 1) ++ ids.drop (i + 1) :=
    (List.take_append_drop (i + 1) ids).symm
  have hmem : x ∈ ids.take (i + 1) := by
    rw [List.take_succ, List.getElem?_eq_getElem hix, hxi]
    simp
  exact List.disjoint_of_nodup_append (hsplit ▸ hnd) hmem

theorem nodup_erase_drop (ids : List ℕ) (i : ℕ) (x : ℕ)
    (hnd : ids.Nodup) (h : ids[i]? = some x) :
    ids.erase x = ids.take i ++ ids.drop (i + 1) := by
  have hix : i < ids.length := by
    by_contra hc
    rw [List.getElem?_eq_none (le_of_not_lt hc)] at h
    exact absurd h (by simp)
  have hxi : ids[i] = x := by
    rw [List.getElem?_eq_getElem hix] at h
    exact Option.some_inj.1 h
  have hdropc : ids.drop i = x :: ids.drop (i + 1) := by
    rw [List.drop_eq_getElem_cons hix, hxi]
  have hsplit : ids = ids.take i ++ (x :: ids.drop (i + 1)) := by
    conv_lhs => rw [← List.take_append_drop i ids]
    rw [hdropc]
  have hnotmem : x ∉ ids.take i := by
    intro hc
    exact List.disjoint_of_nodup_append (hsplit ▸ hnd) hc (by simp)
  conv_lhs => rw [hsplit]
  rw [List.erase_append_right _ hnotmem, List.erase_cons_head]

theorem bulletLoopTrace_spec (δ : ℚ) :
    ∀ (fuel i : ℕ) (gs : GameState), (gs.bullets.map (·.bid)).Nodup →
      (∀ x ∈ bulletLoopTrace δ fuel i gs, x ∈ (gs.bullets.map (·.bid)).drop i) ∧
      (bulletLoopTrace δ fuel i gs).Nodup := by
  intro fuel
  induction fuel with
  | zero => simp [bulletLoopTrace]
  | succ fuel ih =>
      intro i gs hnd
      rw [bulletLoopTrace]
      cases hb : gs.bullets[i]? with
      | none => simp
      | some b =>
          simp only
          obtain ⟨b2, hb2, hcase⟩ := bulletAnimate_bullets gs b δ hnd
          have hupd : (updateBulletById gs.bullets b.bid (fun _ => b2)).map (·.bid) =
              gs.bullets.map (·.bid) := updateBulletById_map_bid _ _ _ hb2
          have hbm : (gs.bullets.map (·.bid))[i]? = some b.bid := by
            rw [List.getElem?_map, hb]
            rfl
          have hnd2 : ((gs.bulletAnimate b δ).bullets.map (·.bid)).Nodup := by
            rcases hcase with hup | hrm
            · rw [hup, hupd]
              exact hnd
            · rw [hrm, removeBulletById_map_erase, hupd]
              exact List.Nodup.erase _ hnd
          obtain ⟨hsub, hnodup⟩ := ih (i + 1) (gs.bulletAnimate b δ) hnd2
          have hdropsub : ∀ x ∈ ((gs.bulletAnimate b δ).bullets.map (·.bid)).drop (i + 1),
              x ∈ (gs.bullets.map (·.bid)).drop (i + 1) := by
            intro x hx
            rcases hcase with hup | hrm
            · rw [hup, hupd] at hx
              exact hx
            · rw [hrm, removeBulletById_map_erase, hupd,
                nodup_erase_drop _ i b.bid hnd hbm] at hx
              rw [List.drop_append_eq_append_drop,
                List.drop_eq_nil_of_le
                  (le_trans (List.length_take_le _ _) (Nat.le_succ i)),
                List.nil_append] at hx
              exact (List.drop_sublist _ _).mem hx
          constructor
          · intro x hx
            rcases List.mem_cons.1 hx with rfl | hx
            · have hlen : i < (gs.bullets.map (·.bid)).length := by
                by_contra hc
                rw [List.getElem?_eq_none (le_of_not_lt hc)] at hbm
                exact absurd hbm (by simp)
              rw [List.drop_eq_getElem_cons hlen]
              rw [List.getElem?_eq_getElem hlen] at hbm
              rw [Option.some_inj.1 hbm]
              exact List.mem_cons_self _ _
            · exact (List.drop_sublist 1 _).mem
                (by rw [List.drop_drop]; exact hdropsub x (hsub x hx))
          · rw [List.nodup_cons]
            refine ⟨?_, hnodup⟩
            intro hc
            have := hdropsub _ (hsub _ hc)
            exact nodup_getElem_not_mem_drop _ i b.bid hnd hbm this

/-- C3 counterexample: with two ship bullets both one tick from the
off-screen threshold, the live-list pass implemented in
`GameState.animate` removes the first bullet, shifting the list so that
the second bullet is never animated, while the snapshot pass the spec
describes animates and removes both — the resulting states differ, so
the bullet update does NOT iterate a stable tick-start snapshot. -/
theorem bullet_pass_not_snapshot :
    (c3Gs.bulletsPhase 1).bullets ≠ (c3Gs.bulletsPhaseSpecSnapshot 1).bullets := by
  norm_num [c3Gs, GameState.bulletsPhase, GameState.bulletsPhaseSpecSnapshot, pyFor,
    pyIterLoop, GameState.bulletAnimate, GameState.shipBulletAnimate, bulletHit,
    updateBulletById, GameState.remove_bullet, removeBulletById, OFFSCREEN_REMOVE_Y,
    BULLET_SPEED]

/-- C3: during one bullet-phase pass of a tick, if the tick-start bullet
ids are distinct then every animated bullet comes from the tick-start
collection and none is animated twice — in particular a bullet removed
during the pass is never revisited later in the same pass. -/
theorem bullet_pass_no_revisit (gs : GameState) (δ : ℚ)
    (hnd : (gs.bullets.map (·.bid)).Nodup) :
    (∀ x ∈ bulletPhaseTrace gs δ, x ∈ gs.bullets.map (·.bid)) ∧
    (bulletPhaseTrace gs δ).Nodup := by
  obtain ⟨hsub, hnodup⟩ := bulletLoopTrace_spec δ gs.bullets.length 0 gs hnd
  refine ⟨fun x hx => ?_, hnodup⟩
  have := hsub x hx
  rwa [List.drop_zero] at this

/-- C3 witness: the no-revisit pass property at the concrete two-bullet
state. -/
theorem bullet_pass_no_revisit_witness :
    (∀ x ∈ bulletPhaseTrace c3Gs 1, x ∈ c3Gs.bullets.map (·.bid)) ∧
    (bulletPhaseTrace c3Gs 1).Nodup :=
  bullet_pass_no_revisit c3Gs 1 (by decide)

/-! ## Frame-step generator lemmas -/

theorem pyFor_nil {α : Type} (get : GameState → List α)
    (body : GameState → α → GameState) (gs : GameState) (h : get gs = []) :
    pyFor get body gs = gs := by
  unfold pyFor
  rw [h]
  rfl

theorem shipMove_cooldown (s : Ship) (δ : ℚ) :
    (shipMove s δ).shoot_cooldown = s.shoot_cooldown := by
  unfold shipMove; split_ifs <;> rfl

theorem shipRapidStep_cooldown (s : Ship) (δ : ℚ) :
    (shipRapidStep s δ).shoot_cooldown = s.shoot_cooldown := by
  simp only [shipRapidStep]
  split_ifs <;> rfl

theorem starfieldAnimate_fields (gs : GameState) (δ : ℚ) :
    (gs.starfieldAnimate δ).ship = gs.ship ∧
    (gs.starfieldAnimate δ).enemies = gs.enemies ∧
    (gs.starfieldAnimate δ).bullets = gs.bullets ∧
    (gs.starfieldAnimate δ).explosions = gs.explosions ∧
    (gs.starfieldAnimate δ).power_ups = gs.power_ups := by
  unfold GameState.starfieldAnimate
  generalize gs.stars.foldl (starStep δ) ([], (gs.rng, gs.rngIdx)) = p
  rcases p with ⟨st, rn, ix⟩
  exact ⟨rfl, rfl, rfl, rfl, rfl⟩

theorem shipAnimate_fields (gs : GameState) (δ : ℚ) (h : gs.power_ups = []) :
    (gs.shipAnimate δ).ship =
      shipRapidStep (shipCooldownStep (shipMove gs.ship δ) δ) δ ∧
    (gs.shipAnimate δ).enemies = gs.enemies ∧
    (gs.shipAnimate δ).bullets = gs.bullets ∧
    (gs.shipAnimate δ).explosions = gs.explosions ∧
    (gs.shipAnimate δ).power_ups = gs.power_ups := by
  unfold GameState.shipAnimate GameState.collectPowerUp
  have hhit : shipPowerUpHit
      { gs with ship := shipRapidStep (shipCooldownStep (shipMove gs.ship δ) δ) δ } =
      none := by
    simp [shipPowerUpHit, h]
  dsimp only
  rw [hhit]
  exact ⟨rfl, rfl, rfl, rfl, rfl⟩

theorem animate_quiet_eq (gs : GameState) (δ : ℚ) (h : Quiet gs) :
    gs.animate δ = (gs.starfieldAnimate δ).shipAnimate δ := by
  obtain ⟨he, hb, hx, hp, _⟩ := h
  obtain ⟨s1s, s1e, s1b, s1x, s1p⟩ := starfieldAnimate_fields gs δ
  obtain ⟨s2s, s2e, s2b, s2x, s2p⟩ :=
    shipAnimate_fields (gs.starfieldAnimate δ) δ (s1p.trans hp)
  unfold GameState.animate GameState.bulletsPhase
  dsimp only
  rw [pyFor_nil (fun x => x.enemies) _ _ (s2e.trans (s1e.trans he)),
    pyFor_nil (fun x => x.bullets) _ _ (s2b.trans (s1b.trans hb)),
    pyFor_nil (fun x => x.explosions) _ _ (s2x.trans (s1x.trans hx)),
    pyFor_nil (fun x => x.power_ups) _ _ (s2p.trans (s1p.trans hp))]

theorem animate_quiet (gs : GameState) (δ : ℚ) (h : Quiet gs) :
    Quiet (gs.animate δ) := by
  rw [animate_quiet_eq gs δ h]
  obtain ⟨he, hb, hx, hp, hcd⟩ := h
  obtain ⟨s1s, s1e, s1b, s1x, s1p⟩ := starfieldAnimate_fields gs δ
  obtain ⟨s2s, s2e, s2b, s2x, s2p⟩ :=
    shipAnimate_fields (gs.starfieldAnimate δ) δ (s1p.trans hp)
  refine ⟨s2e.trans (s1e.trans he), s2b.trans (s1b.trans hb),
    s2x.trans (s1x.trans hx), s2p.trans (s1p.trans hp), ?_⟩
  rw [s2s, s1s, shipRapidStep_cooldown]
  have hcd' : (shipMove gs.ship δ).shoot_cooldown ≤ 0 := by
    rw [shipMove_cooldown]; exact hcd
  unfold shipCooldownStep
  rw [if_neg (not_lt.2 hcd')]
  exact hcd'

theorem animate_quiet_target (gs : GameState) (δ : ℚ) (h : Quiet gs) :
    (gs.animate δ).ship.target_x = gs.ship.target_x := by
  rw [animate_quiet_eq gs δ h]
  obtain ⟨he, hb, hx, hp, _⟩ := h
  obtain ⟨s1s, s1e, s1b, s1x, s1p⟩ := starfieldAnimate_fields gs δ
  obtain ⟨s2s, _, _, _, _⟩ :=
    shipAnimate_fields (gs.starfieldAnimate δ) δ (s1p.trans hp)
  rw [s2s, s1s, shipRapidStep_target, shipCooldownStep_target, shipMove_target]

theorem quiet_can_shoot (gs : GameState) (h : Quiet gs) :
    gs.ship.can_shoot = true := by
  obtain ⟨_, _, _, _, hcd⟩ := h
  simp [Ship.can_shoot, hcd]

theorem advTarget_ne (k : ℕ) : advTarget k ≠ advTarget (k + 1) := by
  unfold advTarget
  rcases Nat.mod_two_eq_zero_or_one k with h | h <;>
    simp [h, Nat.add_mod] <;> norm_num

theorem quiet_advGs : Quiet advGs :=
  ⟨rfl, rfl, rfl, rfl, le_refl 0⟩

theorem adv_waiting_progress (gs : GameState) (k y : ℕ) (hq : Quiet gs)
    (ht : gs.ship.target_x = advTarget k) :
    ∃ m : ℕ, ((mstep advPolicy 1)^[m] ⟨gs, .waiting k, y⟩).yields = y + 1 ∧
      AdvInv ((mstep advPolicy 1)^[m] ⟨gs, .waiting k, y⟩) := by
  by_cases hx : gs.ship.x = gs.ship.target_x
  · have hcta : gs.can_take_action = true := by
      simp [GameState.can_take_action, Ship.is_moving, hx, quiet_can_shoot gs hq]
    have e1 : mstep advPolicy 1 ⟨gs, .waiting k, y⟩ = ⟨gs, .fetch (k + 1), y⟩ := by
      simp [mstep, hcta, advPolicy]
    have e2 : mstep advPolicy 1 ⟨gs, .fetch (k + 1), y⟩ =
        ⟨{ gs with ship := gs.ship.move_to (advTarget (k + 1)) }, .waiting (k + 1), y⟩ := by
      simp [mstep, advPolicy, advTarget]
    have hq2 : Quiet { gs with ship := gs.ship.move_to (advTarget (k + 1)) } :=
      ⟨hq.1, hq.2.1, hq.2.2.1, hq.2.2.2.1, hq.2.2.2.2⟩
    have hxt : gs.ship.x = advTarget k := hx.trans ht
    have hcta2 :
        ({ gs with ship := gs.ship.move_to (advTarget (k + 1)) } : GameState).can_take_action =
          false := by
      simp [GameState.can_take_action, Ship.is_moving, Ship.move_to, hxt, advTarget_ne k]
    have e3 : mstep advPolicy 1
        ⟨{ gs with ship := gs.ship.move_to (advTarget (k + 1)) }, .waiting (k + 1), y⟩ =
        ⟨({ gs with ship := gs.ship.move_to (advTarget (k + 1)) } : GameState).animate 1,
          .waiting (k + 1), y + 1⟩ := by
      simp [mstep, hcta2]
    have hstep3 : (mstep advPolicy 1)^[3] (⟨gs, .waiting k, y⟩ : SimConfig) =
        ⟨({ gs with ship := gs.ship.move_to (advTarget (k + 1)) } : GameState).animate 1,
          .waiting (k + 1), y + 1⟩ := by
      show mstep advPolicy 1 (mstep advPolicy 1 (mstep advPolicy 1 ⟨gs, .waiting k, y⟩)) = _
      rw [e1, e2, e3]
    refine ⟨3, ?_, ?_⟩
    · rw [hstep3]
    · rw [hstep3]
      exact ⟨animate_quiet _ _ hq2,
        Or.inr (Or.inr ⟨k + 1, rfl, (animate_quiet_target _ _ hq2).trans rfl⟩)⟩
  · have hcta : gs.can_take_action = false := by
      simp [GameState.can_take_action, Ship.is_moving, hx]
    have e1 : mstep advPolicy 1 ⟨gs, .waiting k, y⟩ = ⟨gs.animate 1, .waiting k, y + 1⟩ := by
      simp [mstep, hcta]
    refine ⟨1, ?_, ?_⟩
    · rw [Function.iterate_one, e1]
    · rw [Function.iterate_one, e1]
      exact ⟨animate_quiet _ _ hq,
        Or.inr (Or.inr ⟨k, rfl, (animate_quiet_target _ _ hq).trans ht⟩)⟩

theorem adv_progress (c : SimConfig) (h : AdvInv c) :
    ∃ m : ℕ, ((mstep advPolicy 1)^[m] c).yields = c.yields + 1 ∧
      AdvInv ((mstep advPolicy 1)^[m] c) := by
  obtain ⟨gs, ph, y⟩ := c
  obtain ⟨hq, hph⟩ := h
  rcases hph with h0 | ⟨k, hk⟩ | ⟨k, hk, ht⟩
  · have h0' : ph = .start := h0
    subst h0'
    have e1 : mstep advPolicy 1 ⟨gs, .start, y⟩ = ⟨gs, .fetch 0, y + 1⟩ := rfl
    refine ⟨1, ?_, ?_⟩
    · rw [Function.iterate_one, e1]
    · rw [Function.iterate_one, e1]
      exact ⟨hq, Or.inr (Or.inl ⟨0, rfl⟩)⟩
  · have hk' : ph = .fetch k := hk
    subst hk'
    have e1 : mstep advPolicy 1 ⟨gs, .fetch k, y⟩ =
        ⟨{ gs with ship := gs.ship.move_to (advTarget k) }, .waiting k, y⟩ := by
      simp [mstep, advPolicy, advTarget]
    have hq2 : Quiet { gs with ship := gs.ship.move_to (advTarget k) } :=
      ⟨hq.1, hq.2.1, hq.2.2.1, hq.2.2.2.1, hq.2.2.2.2⟩
    obtain ⟨m, hy, hinv⟩ :=
      adv_waiting_progress { gs with ship := gs.ship.move_to (advTarget k) } k y hq2 rfl
    refine ⟨m + 1, ?_, ?_⟩
    · rw [Function.iterate_add_apply, Function.iterate_one, e1]
      exact hy
    · rw [Function.iterate_add_apply, Function.iterate_one, e1]
      exact hinv
  · have hk' : ph = .waiting k := hk
    subst hk'
    exact adv_waiting_progress gs k y hq ht

theorem adv_reach (B : ℕ) : ∃ n, AdvInv (advConfig n) ∧ B ≤ (advConfig n).yields := by
  induction B with
  | zero => exact ⟨0, ⟨quiet_advGs, Or.inl rfl⟩, Nat.zero_le _⟩
  | succ B ih =>
      obtain ⟨n, hinv, hy⟩ := ih
      obtain ⟨m, hm, hinv'⟩ := adv_progress (advConfig n) hinv
      have hsplit : advConfig (m + n) = (mstep advPolicy 1)^[m] (advConfig n) := by
        unfold advConfig
        rw [Function.iterate_add_apply]
      refine ⟨m + n, ?_, ?_⟩
      · rw [hsplit]
        exact hinv'
      · rw [hsplit, hm]
        omega

theorem mstep_tail_step (policy : ℕ → Option Action) (δ : ℚ) (c : SimConfig)
    (h : isTailPhase c.phase) :
    isTailPhase (mstep policy δ c).phase ∧
    (mstep policy δ c).yields + phaseBudget (mstep policy δ c).phase ≤
      c.yields + phaseBudget c.phase := by
  obtain ⟨gs, ph, y⟩ := c
  cases ph with
  | start => exact h.elim
  | fetch k => exact h.elim
  | waiting k => exact h.elim
  | completion cnt =>
      simp only [mstep]
      split_ifs with h1 h2
      · refine ⟨trivial, ?_⟩
        simp only [phaseBudget]
        omega
      · refine ⟨trivial, ?_⟩
        simp only [phaseBudget]
        omega
      · refine ⟨trivial, ?_⟩
        simp only [phaseBudget]
        omega
  | settle j =>
      simp only [mstep]
      split_ifs with h1
      · subst h1
        exact ⟨trivial, le_refl _⟩
      · refine ⟨trivial, ?_⟩
        simp only [phaseBudget]
        omega
  | done => exact ⟨trivial, le_refl _⟩

theorem mstep_tail_iter (policy : ℕ → Option Action) (δ : ℚ) (c : SimConfig)
    (h : isTailPhase c.phase) (n : ℕ) :
    isTailPhase (((mstep policy δ)^[n] c).phase) ∧
    ((mstep policy δ)^[n] c).yields + phaseBudget (((mstep policy δ)^[n] c).phase) ≤
      c.yields + phaseBudget c.phase := by
  induction n with
  | zero => exact ⟨h, le_refl _⟩
  | succ n ih =>
      rw [Function.iterate_succ_apply']
      obtain ⟨ht, hb⟩ := ih
      obtain ⟨ht', hb'⟩ := mstep_tail_step policy δ _ ht
      exact ⟨ht', le_trans hb' hb⟩

/-- C2 counterexample: an action policy that alternates the two far
columns and never exhausts makes `_frame_steps` yield more frames than
the whole force-stop budget (100 completion ticks plus 5 settle
frames) — the counter never engages, because it only bounds the
completion phase entered after the action iterator is exhausted, and
the same argument pushes the yield count past any bound. -/
theorem frame_steps_unbounded_yields :
    ∃ n : ℕ, 105 < (advConfig n).yields := by
  obtain ⟨n, _, hy⟩ := adv_reach 106
  exact ⟨n, lt_of_lt_of_le (Nat.lt_succ_self 105) hy⟩

/-- C2: what the force-stop counter actually guarantees — once the
action iterator is exhausted (the generator reaches a fetch step whose
policy returns nothing), at most `100 + 5` further frames are yielded:
100 force-stop completion ticks plus the 5 settle frames. -/
theorem force_stop_bounds_completion (policy : ℕ → Option Action) (δ : ℚ)
    (c : SimConfig) (k n : ℕ) (hph : c.phase = .fetch k) (hpol : policy k = none) :
    ((mstep policy δ)^[n] c).yields ≤ c.yields + 105 := by
  cases n with
  | zero => exact Nat.le_add_right _ _
  | succ n =>
      rw [Function.iterate_succ_apply]
      have hstep : mstep policy δ c = { c with phase := .completion 100 } := by
        obtain ⟨gs, ph, y⟩ := c
        have hph' : ph = .fetch k := hph
        subst hph'
        simp [mstep, hpol]
      rw [hstep]
      have htail := mstep_tail_iter policy δ { c with phase := .completion 100 } trivial n
      have h2 := htail.2
      simp only [phaseBudget] at h2
      omega

/-- C2 witness: a concrete exhausted-policy run stays within the
force-stop budget. -/
theorem force_stop_bounds_completion_witness :
    ((mstep (fun _ => none) 1)^[200]
        (⟨advGs, .fetch 0, 1⟩ : SimConfig)).yields ≤ 1 + 105 :=
  force_stop_bounds_completion (fun _ => none) 1 ⟨advGs, .fetch 0, 1⟩ 0 200 rfl rfl

/-! ## Entity-minifier theorems -/

set_option maxRecDepth 4000 in
/-- C9 counterexample: minification is not idempotent — on `c9Doc` the
first pass's prefix-entity rewrite turns both `values` attributes into
`&a;…` values, one of which now equals the document's pre-existing
literal `d` value; the second pass finds that value twice, rewrites it,
and prepends a second DOCTYPE, so re-minifying an already-minified
document is not a no-op. -/
theorem entity_minify_not_idempotent :
    tlEntityMinify (tlEntityMinify c9Doc) ≠ tlEntityMinify c9Doc := by decide

/-- C9: the pass is byte-identical on its input only when the
attribute scan finds nothing — a document with no attribute values is
returned unchanged. -/
theorem entity_minify_no_attrs (s : String) (h : findAttrValues s.data = []) :
    tlEntityMinify s = s := by
  unfold tlEntityMinify
  by_cases hs : s.data = []
  · rw [if_pos hs]
  · rw [if_neg hs]
    have hc : attrCounts s.data = [] := by
      unfold attrCounts
      rw [h]
      rfl
    simp [hc]

/-- C9 witness: a document without attribute values is fixed by the
minifier. -/
theorem entity_minify_no_attrs_witness : tlEntityMinify "<svg/>" = "<svg/>" :=
  entity_minify_no_attrs "<svg/>" (by decide)

end GhSpaceShooter
